import Mathlib

/-!
# Verification of the `lineriver` line splitter

Shallow embedding of `src/linereader.rs` (the `LineReader` type, its
`eval_buf`, `read_once`, `eof`, `lines_get` operations) together with the
`LineRead` trait drivers from `src/lineread.rs` and
`src/line_reader_nonblock.rs`.

Bytes are modelled as `Nat` values (`0 ≤ b < 256` is never needed by the
code: it only compares bytes with the newline byte `10` and feeds them to
the UTF-8 validator, both of which are total on `Nat`).  Rust `Vec<u8>`
becomes `List Nat`; a Rust `String` is represented by its byte content
(`List Nat`), which is faithful because `str::from_utf8` returns a view of
exactly the input bytes.  The underlying non-blocking reader is modelled
by a script of `ReadEvent`s: each event is the outcome the single
`self.reader.read(&mut buf[self.used..])` call inside `read_once` would
produce.
-/

set_option autoImplicit false

namespace Lineriver

/-- Errors surfaced by the splitter, mirroring the two classes of
`std::io::Error` the code can return: `invalidData` models the
`ErrorKind::InvalidData` error built by `u8array_to_string`, and
`fatal code` models any other I/O error kind propagated unchanged from
the underlying read (`WouldBlock` and `Interrupted` are absorbed by
`read_once` and never surface, so they have no constructor here). -/
inductive IOErr where
  | invalidData : IOErr
  | fatal : Nat → IOErr
deriving DecidableEq, Repr

/-- Decidable equality for `Except` results, so concrete runs of the
model can be checked by `decide`. -/
instance {e a : Type} [DecidableEq e] [DecidableEq a] : DecidableEq (Except e a) := fun x y =>
  match x, y with
  | .ok v, .ok w =>
    if h : v = w then isTrue (by rw [h]) else isFalse (fun he => by cases he; exact h rfl)
  | .error v, .error w =>
    if h : v = w then isTrue (by rw [h]) else isFalse (fun he => by cases he; exact h rfl)
  | .ok _, .error _ => isFalse (fun he => Except.noConfusion he)
  | .error _, .ok _ => isFalse (fun he => Except.noConfusion he)

/-- Outcome of the single `self.reader.read(&mut buf[self.used..])`
attempt inside `read_once`: `data c` is `Ok(c.len())` with the bytes `c`
written at offset `used` (so `data []` is `Ok(0)`, end of stream); the
other constructors are the error kinds the `match` in `read_once`
distinguishes. -/
inductive ReadEvent where
  | data : List Nat → ReadEvent
  | wouldBlock : ReadEvent
  | interrupted : ReadEvent
  | fatal : Nat → ReadEvent
deriving DecidableEq, Repr

/-- `memchr::memchr(needle, haystack)`: index of the first occurrence of
`needle` in `haystack`, or `none`.  (The `memchr` crate is an external
dependency; this is its documented behavior.) -/
def memchr (needle : Nat) : List Nat → Option Nat
  | [] => none
  | b :: rest => if b = needle then some 0 else (memchr needle rest).map (· + 1)

/-- Termination bound for the recursions that drop past a found newline:
a found index lies inside the haystack. -/
def memchr_some_lt : ∀ (l : List Nat) (n i : Nat), memchr n l = some i → i < l.length := by
  intro l
  induction l with
  | nil => intro n i h; simp [memchr] at h
  | cons b rest ih =>
    intro n i h
    simp only [memchr] at h
    split at h
    · cases h
      simp
    · obtain ⟨j, hj, rfl⟩ := Option.map_eq_some'.mp h
      have := ih n j hj
      simp only [List.length_cons]
      omega

/-- `0x80 ≤ b ≤ 0xBF`: UTF-8 continuation byte. -/
def isCont (b : Nat) : Bool := 0x80 ≤ b && b ≤ 0xBF

/-- Number of bytes of a well-formed UTF-8 scalar starting with lead byte
`b` (0 when `b` cannot lead a scalar: continuation bytes, the overlong
leads 0xC0/0xC1, and bytes above 0xF4). -/
def utf8Len (b : Nat) : Nat :=
  if b ≤ 0x7F then 1
  else if 0xC2 ≤ b && b ≤ 0xDF then 2
  else if 0xE0 ≤ b && b ≤ 0xEF then 3
  else if 0xF0 ≤ b && b ≤ 0xF4 then 4
  else 0

/-- Admissible range of the first continuation byte after lead `b`
(table 3-7 of the Unicode standard: 0xE0/0xED/0xF0/0xF4 restrict it to
exclude overlong encodings, surrogates and code points above U+10FFFF). -/
def contOk1 (b c1 : Nat) : Bool :=
  if b = 0xE0 then 0xA0 ≤ c1 && c1 ≤ 0xBF
  else if b = 0xED then 0x80 ≤ c1 && c1 ≤ 0x9F
  else if b = 0xF0 then 0x90 ≤ c1 && c1 ≤ 0xBF
  else if b = 0xF4 then 0x80 ≤ c1 && c1 ≤ 0x8F
  else isCont c1

/-- Consume one well-formed UTF-8 scalar from the front of `s`, returning
the remaining bytes, or `none` when the front is not a well-formed
scalar (or `s` is empty). -/
def utf8Step : List Nat → Option (List Nat)
  | [] => none
  | b :: rest =>
    if utf8Len b = 1 then some rest
    else if utf8Len b = 2 then
      match rest with
      | c1 :: r => if contOk1 b c1 then some r else none
      | _ => none
    else if utf8Len b = 3 then
      match rest with
      | c1 :: c2 :: r => if contOk1 b c1 && isCont c2 then some r else none
      | _ => none
    else if utf8Len b = 4 then
      match rest with
      | c1 :: c2 :: c3 :: r => if contOk1 b c1 && isCont c2 && isCont c3 then some r else none
      | _ => none
    else none

/-- Termination bound: a consumed scalar is nonempty. -/
def utf8Step_some_lt : ∀ (s r : List Nat), utf8Step s = some r → r.length < s.length := by
  intro s r h
  match s with
  | [] => simp [utf8Step] at h
  | b :: rest =>
    unfold utf8Step at h
    repeat' split at h
    all_goals simp_all
    all_goals omega

/-- Well-formedness of a byte sequence as UTF-8: the sequence decomposes
into well-formed scalars.  This is exactly the set of inputs accepted by
`std::str::from_utf8` (an external dependency, modelled from its
documented behavior: the well-formed byte sequences of the Unicode
standard, table 3-7 — no overlongs, no surrogates, no code points above
U+10FFFF). -/
def utf8Valid (s : List Nat) : Bool :=
  match h : utf8Step s with
  | none => s.isEmpty
  | some r => utf8Valid r
termination_by s.length
decreasing_by
  exact utf8Step_some_lt _ _ h

/-- `u8array_to_string` from `src/linereader.rs`: convert a byte slice to
an owned `String`, or an `ErrorKind::InvalidData` error when the bytes are
not valid UTF-8.  On success the string's bytes are exactly the input
bytes, so the result is represented by the same byte list. -/
def u8array_to_string (buf : List Nat) : Except IOErr (List Nat) :=
  if utf8Valid buf then .ok buf else .error .invalidData

/-- `BUFFER_SIZE` from `src/linereader.rs`. -/
def BUFFER_SIZE : Nat := 8192

/-- State of `LineReader<R>` from `src/linereader.rs` (the reader `R`
itself is external, modelled by the event script fed to `read_once`).
`buf` is the full `Vec<u8>` content (length = Rust `buf.len()`, including
the zero fill produced by `resize`); `used` counts the live bytes at the
front; `lines` is the accumulated `Vec<String>` of validated lines, each
represented by its bytes.  `LineReaderNonBlock` in
`src/line_reader_nonblock.rs` has the same fields and token-identical
method bodies, so this one state type serves both. -/
structure LineReader where
  at_eof : Bool
  buf : List Nat
  used : Nat
  lines : List (List Nat)
deriving DecidableEq, Repr

/-- `Vec::resize(newLen, 0)` as used by `read_once`: it only ever grows
(the call is guarded by `buf.len() < used + BUFFER_SIZE`), appending a
zero fill. -/
def resizeTo (buf : List Nat) (newLen : Nat) : List Nat :=
  buf ++ List.replicate (newLen - buf.length) 0

/-- `LineReader::eval_buf`: scan `buf[pos..used]` for newline bytes; for
each one found, split off everything up to and including it as a
candidate line (`Vec::split_off` + `mem::swap`), shrink `used`, validate
and push the candidate, and rescan the remainder from position 0.  The
Rust method mutates `self` and returns `Result<(), io::Error>`; here the
final `buf`/`used`/`lines` are returned alongside the optional error, so
that the state left behind by an early `?` return is visible. -/
def eval_buf (buf : List Nat) (used pos : Nat) (lines : List (List Nat)) :
    Option IOErr × List Nat × Nat × List (List Nat) :=
  match h : memchr 10 ((buf.take used).drop pos) with
  | none => (none, buf, used, lines)
  | some inewline =>
    -- cut = pos + inewline + 1, the index one past the found newline
    match u8array_to_string (buf.take (pos + inewline + 1)) with
    | .error e => (some e, buf.drop (pos + inewline + 1), used - (pos + inewline + 1), lines)
    | .ok s =>
      eval_buf (buf.drop (pos + inewline + 1)) (used - (pos + inewline + 1)) 0 (lines ++ [s])
termination_by buf.length
decreasing_by
  have hlt := memchr_some_lt _ _ _ h
  simp only [List.length_drop, List.length_take] at hlt ⊢
  omega

/-- The capacity-ensuring step of `read_once`:
`if self.buf.len() < self.used + BUFFER_SIZE { self.buf.resize(self.used + BUFFER_SIZE, 0); }`. -/
def grow_buf (buf : List Nat) (used : Nat) : List Nat :=
  if buf.length < used + BUFFER_SIZE then resizeTo buf (used + BUFFER_SIZE) else buf

/-- `LineReader::read_once` driven by one outcome `ev` of the underlying
read attempt.  Returns the Rust `Result<bool, io::Error>` together with
the state of the splitter after the call (Rust mutates `self` in place;
on an error return the mutations made before the `?` stand). -/
def read_once (lr : LineReader) (ev : ReadEvent) : Except IOErr Bool × LineReader :=
  if lr.at_eof then (.ok false, lr)
  else
    let buf0 := grow_buf lr.buf lr.used
    let oldused := lr.used
    match ev with
    | .data c =>
      if c.length = 0 then
        -- Ok(0): end of stream.
        if 0 < lr.used then
          -- lastline = mem::take(&mut self.buf) truncated to `used`;
          -- on validation failure the `?` returns before `used` is reset
          -- and before `at_eof` is set, with `buf` already taken (empty).
          match u8array_to_string (buf0.take lr.used) with
          | .error e => (.error e, { lr with buf := [] })
          | .ok s =>
            (.ok true, { at_eof := true, buf := [], used := 0, lines := lr.lines ++ [s] })
        else
          (.ok true, { lr with at_eof := true, buf := buf0 })
      else
        -- Ok(len) with len > 0: bytes written at offset `used`.
        let bufW := buf0.take lr.used ++ c ++ buf0.drop (lr.used + c.length)
        match eval_buf bufW (lr.used + c.length) oldused lr.lines with
        | (some e, b, u, ls) => (.error e, { lr with buf := b, used := u, lines := ls })
        | (none, b, u, ls) => (.ok true, { lr with buf := b, used := u, lines := ls })
    | .wouldBlock => (.ok true, { lr with buf := buf0 })
    | .interrupted => (.ok true, { lr with buf := buf0 })
    | .fatal code => (.error (.fatal code), { lr with buf := buf0 })

/-- `LineRead::eof` for `LineReader`. -/
def eof (lr : LineReader) : Bool := lr.at_eof

/-- `LineRead::lines_get` for `LineReader`: `mem::take(&mut self.lines)` —
returns the accumulated lines and the state left behind. -/
def lines_get (lr : LineReader) : List (List Nat) × LineReader :=
  (lr.lines, { lr with lines := [] })

/-- Modelled from the spec: the `LineRead` trait requires `has_lines` but
no implementation for `LineReader` appears under `src/`; the spec says
"true iff `lines_get` would currently return a non-empty sequence". -/
def has_lines (lr : LineReader) : Bool := !lr.lines.isEmpty

/-- `LineReader::from_nonblocking`: fresh splitter with empty buffer,
`used = 0`, no pending lines, `at_eof = false`. -/
def from_nonblocking : LineReader :=
  { at_eof := false, buf := [], used := 0, lines := [] }

/-- Drive `read_once` once per script event, stopping at the first error
(as a caller propagating the `Result` would). -/
def runEvents (lr : LineReader) : List ReadEvent → Option IOErr × LineReader
  | [] => (none, lr)
  | ev :: rest =>
    match read_once lr ev with
    | (.error e, lr') => (some e, lr')
    | (.ok _, lr') => runEvents lr' rest

/-- `LineRead::read_available` default body from `src/lineread.rs`:
`while self.read_once()? && !self.has_lines() {}`.  The script supplies
successive underlying read outcomes; `none` means the script ran out
while the loop would still continue (not realizable for a real reader,
which always produces some outcome). -/
def read_available (lr : LineReader) (evs : List ReadEvent) :
    Option (Except IOErr Unit × LineReader) :=
  if lr.at_eof then some (.ok (), lr)
  else
    match evs with
    | [] => none
    | ev :: rest =>
      match read_once lr ev with
      | (.error e, lr') => some (.error e, lr')
      | (.ok false, lr') => some (.ok (), lr')
      | (.ok true, lr') =>
        if has_lines lr' then some (.ok (), lr')
        else read_available lr' rest
termination_by evs.length
decreasing_by simp_all

/-- `LineReaderNonBlock::read_available` from
`src/line_reader_nonblock.rs`: `while self.read_once()? {}` — same loop
without the `has_lines` early exit (`LineReaderNonBlock::read_once` is
token-identical to `LineReader::read_once`, so `read_once` serves both). -/
def read_available_nonblock (lr : LineReader) (evs : List ReadEvent) :
    Option (Except IOErr Unit × LineReader) :=
  if lr.at_eof then some (.ok (), lr)
  else
    match evs with
    | [] => none
    | ev :: rest =>
      match read_once lr ev with
      | (.error e, lr') => some (.error e, lr')
      | (.ok false, lr') => some (.ok (), lr')
      | (.ok true, lr') => read_available_nonblock lr' rest
termination_by evs.length
decreasing_by simp_all

/-- Reference function (for stating stream-level properties): the
newline-terminated segments of a byte sequence, in order, each including
its terminating newline. -/
def splitTerm (s : List Nat) : List (List Nat) :=
  match h : memchr 10 s with
  | none => []
  | some i => s.take (i + 1) :: splitTerm (s.drop (i + 1))
termination_by s.length
decreasing_by
  have hlt := memchr_some_lt _ _ _ h
  simp only [List.length_drop]
  omega

/-- Reference function: the bytes after the last newline (the trailing
unterminated fragment; the whole sequence when it has no newline). -/
def restAfter (s : List Nat) : List Nat :=
  match h : memchr 10 s with
  | none => s
  | some i => restAfter (s.drop (i + 1))
termination_by s.length
decreasing_by
  have hlt := memchr_some_lt _ _ _ h
  simp only [List.length_drop]
  omega

/-- Reference function: all lines of a byte stream — the terminated
segments followed by the trailing fragment when it is nonempty. -/
def splitLines (s : List Nat) : List (List Nat) :=
  splitTerm s ++ (if restAfter s = [] then [] else [restAfter s])

/-- The live region of the buffer: the first `used` bytes. -/
def live (lr : LineReader) : List Nat := lr.buf.take lr.used

/-- Structural well-formedness: the live byte count never exceeds the
buffer's length (hence never its capacity). -/
def wfUsed (lr : LineReader) : Prop := lr.used ≤ lr.buf.length

/-- The scan invariant: the live region holds no newline byte. -/
def noNl (lr : LineReader) : Prop := memchr 10 (live lr) = none

/-- Invariant tying a splitter state to the prefix `P` of the stream read
so far, on an error-free run: not yet at EOF, live count within the
buffer, the live region is exactly the trailing unterminated fragment of
`P`, and the accumulated lines are exactly the terminated segments of
`P`. -/
def RunInv (P : List Nat) (lr : LineReader) : Prop :=
  lr.at_eof = false ∧ lr.used ≤ lr.buf.length ∧ live lr = restAfter P ∧
    lr.lines = splitTerm P

/-- A mid-stream script event: a nonempty chunk of at most `BUFFER_SIZE`
bytes (a single read never returns more than the supplied region, which
is exactly `BUFFER_SIZE` bytes long after the resize), or one of the two
absorbed conditions. -/
def midEvent : ReadEvent → Prop
  | .data c => c ≠ [] ∧ c.length ≤ BUFFER_SIZE
  | .wouldBlock => True
  | .interrupted => True
  | .fatal _ => False

instance : DecidablePred midEvent := fun ev =>
  match ev with
  | .data c => inferInstanceAs (Decidable (c ≠ [] ∧ c.length ≤ BUFFER_SIZE))
  | .wouldBlock => inferInstanceAs (Decidable True)
  | .interrupted => inferInstanceAs (Decidable True)
  | .fatal _ => inferInstanceAs (Decidable False)

/-- The bytes delivered by a script's data events, in order. -/
def scriptData : List ReadEvent → List Nat
  | [] => []
  | .data c :: rest => c ++ scriptData rest
  | _ :: rest => scriptData rest

/-- Byte-sequence decomposition into well-formed UTF-8 scalars: the
relational counterpart of `utf8Valid`, used to reason about splitting a
valid sequence at a newline. -/
inductive Utf8Chunks : List Nat → Prop where
  | nil : Utf8Chunks []
  | one (b : Nat) (rest : List Nat) : b ≤ 0x7F → Utf8Chunks rest →
      Utf8Chunks (b :: rest)
  | two (b c1 : Nat) (rest : List Nat) : 0xC2 ≤ b → b ≤ 0xDF →
      isCont c1 = true → Utf8Chunks rest → Utf8Chunks (b :: c1 :: rest)
  | threeE0 (c1 c2 : Nat) (rest : List Nat) : 0xA0 ≤ c1 → c1 ≤ 0xBF →
      isCont c2 = true → Utf8Chunks rest → Utf8Chunks (0xE0 :: c1 :: c2 :: rest)
  | threeMid (b c1 c2 : Nat) (rest : List Nat) :
      ((0xE1 ≤ b ∧ b ≤ 0xEC) ∨ b = 0xEE ∨ b = 0xEF) → isCont c1 = true →
      isCont c2 = true → Utf8Chunks rest → Utf8Chunks (b :: c1 :: c2 :: rest)
  | threeED (c1 c2 : Nat) (rest : List Nat) : 0x80 ≤ c1 → c1 ≤ 0x9F →
      isCont c2 = true → Utf8Chunks rest → Utf8Chunks (0xED :: c1 :: c2 :: rest)
  | fourF0 (c1 c2 c3 : Nat) (rest : List Nat) : 0x90 ≤ c1 → c1 ≤ 0xBF →
      isCont c2 = true → isCont c3 = true → Utf8Chunks rest →
      Utf8Chunks (0xF0 :: c1 :: c2 :: c3 :: rest)
  | fourMid (b c1 c2 c3 : Nat) (rest : List Nat) : 0xF1 ≤ b → b ≤ 0xF3 →
      isCont c1 = true → isCont c2 = true → isCont c3 = true → Utf8Chunks rest →
      Utf8Chunks (b :: c1 :: c2 :: c3 :: rest)
  | fourF4 (c1 c2 c3 : Nat) (rest : List Nat) : 0x80 ≤ c1 → c1 ≤ 0x8F →
      isCont c2 = true → isCont c3 = true → Utf8Chunks rest →
      Utf8Chunks (0xF4 :: c1 :: c2 :: c3 :: rest)

/-- Fuel-indexed evaluator for `utf8Valid` (structural recursion, so that
concrete instances can be checked by `decide`; agrees with `utf8Valid`
whenever `s.length ≤ fuel`). -/
def utf8ValidF : Nat → List Nat → Bool
  | 0, s => s.isEmpty
  | fuel + 1, s =>
    match utf8Step s with
    | none => s.isEmpty
    | some r => utf8ValidF fuel r

/-- Fuel-indexed evaluator for `splitTerm` (structural recursion; agrees
with `splitTerm` whenever `s.length ≤ fuel`). -/
def splitTermF : Nat → List Nat → List (List Nat)
  | 0, _ => []
  | fuel + 1, s =>
    match memchr 10 s with
    | none => []
    | some i => s.take (i + 1) :: splitTermF fuel (s.drop (i + 1))

/-! ## Lemmas about `memchr` -/

theorem memchr_nil (n : Nat) : memchr n [] = none := rfl

theorem memchr_cons_self (n : Nat) (l : List Nat) : memchr n (n :: l) = some 0 := by
  simp [memchr]

theorem memchr_cons_ne (b n : Nat) (l : List Nat) (h : b ≠ n) :
    memchr n (b :: l) = (memchr n l).map (· + 1) := by
  simp [memchr, h]

theorem memchr_eq_none_iff (n : Nat) (l : List Nat) :
    memchr n l = none ↔ ∀ x ∈ l, x ≠ n := by
  induction l with
  | nil => simp [memchr]
  | cons b rest ih =>
    by_cases hb : b = n
    · subst hb
      simp [memchr_cons_self]
    · rw [memchr_cons_ne b n rest hb]
      simp [hb, ih]

theorem memchr_append_left (n : Nat) (a b : List Nat) (i : Nat)
    (h : memchr n a = some i) : memchr n (a ++ b) = some i := by
  induction a generalizing i with
  | nil => simp [memchr] at h
  | cons x rest ih =>
    by_cases hx : x = n
    · subst hx
      rw [memchr_cons_self] at h
      cases h
      simp [memchr_cons_self]
    · rw [memchr_cons_ne x n rest hx] at h
      obtain ⟨j, hj, rfl⟩ := Option.map_eq_some'.mp h
      rw [List.cons_append, memchr_cons_ne x n _ hx, ih j hj]
      rfl

theorem memchr_append_right (n : Nat) (a b : List Nat)
    (h : memchr n a = none) : memchr n (a ++ b) = (memchr n b).map (· + a.length) := by
  induction a with
  | nil => simp
  | cons x rest ih =>
    by_cases hx : x = n
    · subst hx
      rw [memchr_cons_self] at h
      cases h
    · rw [memchr_cons_ne x n rest hx] at h
      rw [List.cons_append, memchr_cons_ne x n _ hx, ih (by simpa using h)]
      cases memchr n b <;> simp [List.length_cons]
      omega

theorem memchr_append_none (n : Nat) (a b : List Nat)
    (ha : memchr n a = none) (hb : memchr n b = none) : memchr n (a ++ b) = none := by
  rw [memchr_append_right n a b ha, hb]
  rfl

theorem memchr_get (n : Nat) (l : List Nat) (i : Nat) (h : memchr n l = some i) :
    l.take i ++ n :: l.drop (i + 1) = l := by
  induction l generalizing i with
  | nil => simp [memchr] at h
  | cons x rest ih =>
    by_cases hx : x = n
    · subst hx
      rw [memchr_cons_self] at h
      cases h
      simp
    · rw [memchr_cons_ne x n rest hx] at h
      obtain ⟨j, hj, rfl⟩ := Option.map_eq_some'.mp h
      simpa using ih j hj

theorem memchr_take_none (n : Nat) (l : List Nat) (i : Nat) (h : memchr n l = some i) :
    memchr n (l.take i) = none := by
  induction l generalizing i with
  | nil => simp [memchr] at h
  | cons x rest ih =>
    by_cases hx : x = n
    · subst hx
      rw [memchr_cons_self] at h
      cases h
      simp [memchr]
    · rw [memchr_cons_ne x n rest hx] at h
      obtain ⟨j, hj, rfl⟩ := Option.map_eq_some'.mp h
      simpa [List.take_cons, memchr_cons_ne x n _ hx] using ih j hj

/-! ## Lemmas about `splitTerm`, `restAfter`, `splitLines` -/

theorem splitTerm_of_none {s : List Nat} (h : memchr 10 s = none) : splitTerm s = [] := by
  rw [splitTerm, h]

theorem splitTerm_of_some {s : List Nat} {i : Nat} (h : memchr 10 s = some i) :
    splitTerm s = s.take (i + 1) :: splitTerm (s.drop (i + 1)) := by
  rw [splitTerm]
  split <;> simp_all

theorem restAfter_of_none {s : List Nat} (h : memchr 10 s = none) : restAfter s = s := by
  rw [restAfter, h]

theorem restAfter_of_some {s : List Nat} {i : Nat} (h : memchr 10 s = some i) :
    restAfter s = restAfter (s.drop (i + 1)) := by
  rw [restAfter]
  split <;> simp_all

theorem restAfter_no_nl (s : List Nat) : memchr 10 (restAfter s) = none := by
  match h : memchr 10 s with
  | none => rw [restAfter_of_none h]; exact h
  | some i => rw [restAfter_of_some h]; exact restAfter_no_nl (s.drop (i + 1))
termination_by s.length
decreasing_by
  have hlt := memchr_some_lt _ _ _ h
  simp only [List.length_drop]
  omega

theorem restAfter_length_le (s : List Nat) : (restAfter s).length ≤ s.length := by
  match h : memchr 10 s with
  | none => rw [restAfter_of_none h]
  | some i =>
    rw [restAfter_of_some h]
    have := restAfter_length_le (s.drop (i + 1))
    simp only [List.length_drop] at this
    omega
termination_by s.length
decreasing_by
  have hlt := memchr_some_lt _ _ _ h
  simp only [List.length_drop]
  omega

/-- The terminated segments followed by the trailing fragment reassemble
the original sequence. -/
theorem splitTerm_join_restAfter (s : List Nat) :
    (splitTerm s).flatten ++ restAfter s = s := by
  match h : memchr 10 s with
  | none => rw [splitTerm_of_none h, restAfter_of_none h]; simp
  | some i =>
    rw [splitTerm_of_some h, restAfter_of_some h]
    have ih := splitTerm_join_restAfter (s.drop (i + 1))
    simp only [List.flatten_cons, List.append_assoc, ih]
    exact List.take_append_drop (i + 1) s
termination_by s.length
decreasing_by
  have hlt := memchr_some_lt _ _ _ h
  simp only [List.length_drop]
  omega

/-- Splitting a concatenation: the segments of `a ++ b` are the segments
of `a` followed by the segments of `a`'s trailing fragment glued to `b`. -/
theorem splitTerm_append (a b : List Nat) :
    splitTerm (a ++ b) = splitTerm a ++ splitTerm (restAfter a ++ b) := by
  match h : memchr 10 a with
  | none => rw [splitTerm_of_none h, restAfter_of_none h]; simp
  | some i =>
    have hi := memchr_some_lt _ _ _ h
    have hab : memchr 10 (a ++ b) = some i := memchr_append_left 10 a b i h
    rw [splitTerm_of_some hab, splitTerm_of_some h, restAfter_of_some h]
    rw [List.take_append_of_le_length (by omega), List.drop_append_of_le_length (by omega)]
    have ih := splitTerm_append (a.drop (i + 1)) b
    rw [ih]
    simp
termination_by a.length
decreasing_by
  simp only [List.length_drop]
  omega

theorem restAfter_append (a b : List Nat) :
    restAfter (a ++ b) = restAfter (restAfter a ++ b) := by
  match h : memchr 10 a with
  | none => rw [restAfter_of_none h]
  | some i =>
    have hi := memchr_some_lt _ _ _ h
    have hab : memchr 10 (a ++ b) = some i := memchr_append_left 10 a b i h
    rw [restAfter_of_some hab, restAfter_of_some h]
    rw [List.drop_append_of_le_length (by omega)]
    exact restAfter_append (a.drop (i + 1)) b
termination_by a.length
decreasing_by
  have hlt := memchr_some_lt _ _ _ h
  simp only [List.length_drop]
  omega

/-- Terminated segments of a prefix stay segments of the longer stream. -/
theorem splitTerm_mem_append (a b : List Nat) {l : List Nat}
    (h : l ∈ splitTerm a) : l ∈ splitTerm (a ++ b) := by
  rw [splitTerm_append a b]
  exact List.mem_append_left _ h

/-- The number of terminated segments equals the number of newlines. -/
theorem splitTerm_length_count (s : List Nat) :
    (splitTerm s).length = s.count 10 := by
  match h : memchr 10 s with
  | none =>
    rw [splitTerm_of_none h]
    have := (memchr_eq_none_iff 10 s).mp h
    simp only [List.length_nil]
    symm
    exact List.count_eq_zero.mpr (fun hm => (this 10 hm) rfl)
  | some i =>
    rw [splitTerm_of_some h]
    have ih := splitTerm_length_count (s.drop (i + 1))
    have hget := memchr_get 10 s i h
    have htake := memchr_take_none 10 s i h
    have hcnt_take : (s.take i).count 10 = 0 :=
      List.count_eq_zero.mpr (fun hm => ((memchr_eq_none_iff 10 _).mp htake 10 hm) rfl)
    calc (s.take (i + 1) :: splitTerm (s.drop (i + 1))).length
        = (splitTerm (s.drop (i + 1))).length + 1 := by simp [Nat.add_comm]
      _ = (s.drop (i + 1)).count 10 + 1 := by rw [ih]
      _ = s.count 10 := by
          conv_rhs => rw [← hget]
          simp [List.count_append, List.count_cons, hcnt_take]
termination_by s.length
decreasing_by
  have hlt := memchr_some_lt _ _ _ h
  simp only [List.length_drop]
  omega

/-! ## UTF-8: `utf8Valid` and `Utf8Chunks` -/

theorem isCont_ne_nl {c : Nat} (h : isCont c = true) : c ≠ 10 := by
  unfold isCont at h
  simp only [Bool.and_eq_true, decide_eq_true_eq] at h
  omega

theorem memchr_cons_ne_some {b n i : Nat} {l : List Nat} (hb : b ≠ n)
    (h : memchr n (b :: l) = some i) : ∃ j, memchr n l = some j ∧ i = j + 1 := by
  rw [memchr_cons_ne b n l hb] at h
  obtain ⟨j, hj, rfl⟩ := Option.map_eq_some'.mp h
  exact ⟨j, hj, rfl⟩

theorem utf8Valid_step_some {s r : List Nat} (h : utf8Step s = some r) :
    utf8Valid s = utf8Valid r := by
  rw [utf8Valid.eq_def, h]

theorem utf8Valid_step_none {s : List Nat} (h : utf8Step s = none) :
    utf8Valid s = s.isEmpty := by
  rw [utf8Valid.eq_def, h]

theorem utf8Len_one {b : Nat} (h : utf8Len b = 1) : b ≤ 0x7F := by
  unfold utf8Len at h
  split_ifs at h <;> simp_all

theorem utf8Len_two {b : Nat} (h : utf8Len b = 2) : 0xC2 ≤ b ∧ b ≤ 0xDF := by
  unfold utf8Len at h
  split_ifs at h <;> simp_all

theorem utf8Len_three {b : Nat} (h : utf8Len b = 3) : 0xE0 ≤ b ∧ b ≤ 0xEF := by
  unfold utf8Len at h
  split_ifs at h <;> simp_all

theorem utf8Len_four {b : Nat} (h : utf8Len b = 4) : 0xF0 ≤ b ∧ b ≤ 0xF4 := by
  unfold utf8Len at h
  split_ifs at h <;> simp_all

theorem utf8Len_eq_one {b : Nat} (h : b ≤ 0x7F) : utf8Len b = 1 := by
  unfold utf8Len
  simp [h]

theorem utf8Len_eq_two {b : Nat} (h1 : 0xC2 ≤ b) (h2 : b ≤ 0xDF) : utf8Len b = 2 := by
  unfold utf8Len
  rw [if_neg (by omega)]
  simp [h1, h2]

theorem utf8Len_eq_three {b : Nat} (h1 : 0xE0 ≤ b) (h2 : b ≤ 0xEF) : utf8Len b = 3 := by
  unfold utf8Len
  rw [if_neg (by omega), if_neg (by simp; omega)]
  simp [h1, h2]

theorem utf8Len_eq_four {b : Nat} (h1 : 0xF0 ≤ b) (h2 : b ≤ 0xF4) : utf8Len b = 4 := by
  unfold utf8Len
  rw [if_neg (by omega), if_neg (by simp; omega), if_neg (by simp; omega)]
  simp [h1, h2]

theorem contOk1_of_le_DF {b c1 : Nat} (h : b ≤ 0xDF) : contOk1 b c1 = isCont c1 := by
  unfold contOk1
  rw [if_neg (by omega), if_neg (by omega), if_neg (by omega), if_neg (by omega)]

theorem contOk1_E0 (c1 : Nat) : contOk1 0xE0 c1 = (0xA0 ≤ c1 && c1 ≤ 0xBF) := by
  unfold contOk1
  rw [if_pos rfl]

theorem contOk1_ED (c1 : Nat) : contOk1 0xED c1 = (0x80 ≤ c1 && c1 ≤ 0x9F) := by
  unfold contOk1
  rw [if_neg (by omega), if_pos rfl]

theorem contOk1_F0 (c1 : Nat) : contOk1 0xF0 c1 = (0x90 ≤ c1 && c1 ≤ 0xBF) := by
  unfold contOk1
  rw [if_neg (by omega), if_neg (by omega), if_pos rfl]

theorem contOk1_F4 (c1 : Nat) : contOk1 0xF4 c1 = (0x80 ≤ c1 && c1 ≤ 0x8F) := by
  unfold contOk1
  rw [if_neg (by omega), if_neg (by omega), if_neg (by omega), if_pos rfl]

theorem contOk1_mid3 {b : Nat} (hb : (0xE1 ≤ b ∧ b ≤ 0xEC) ∨ b = 0xEE ∨ b = 0xEF)
    (c1 : Nat) : contOk1 b c1 = isCont c1 := by
  unfold contOk1
  rw [if_neg (by omega), if_neg (by omega), if_neg (by omega), if_neg (by omega)]

theorem contOk1_mid4 {b : Nat} (h1 : 0xF1 ≤ b) (h2 : b ≤ 0xF3) (c1 : Nat) :
    contOk1 b c1 = isCont c1 := by
  unfold contOk1
  rw [if_neg (by omega), if_neg (by omega), if_neg (by omega), if_neg (by omega)]

theorem utf8Step_one {b : Nat} (rest : List Nat) (hb : b ≤ 0x7F) :
    utf8Step (b :: rest) = some rest := by
  simp only [utf8Step]
  rw [if_pos (utf8Len_eq_one hb)]

theorem utf8Step_two {b c1 : Nat} (rest : List Nat) (h1 : 0xC2 ≤ b) (h2 : b ≤ 0xDF)
    (hc : isCont c1 = true) : utf8Step (b :: c1 :: rest) = some rest := by
  simp only [utf8Step]
  simp [utf8Len_eq_two h1 h2, contOk1_of_le_DF h2, hc]

theorem utf8Step_threeE0 {c1 c2 : Nat} (rest : List Nat) (h1 : 0xA0 ≤ c1) (h2 : c1 ≤ 0xBF)
    (hc : isCont c2 = true) : utf8Step (0xE0 :: c1 :: c2 :: rest) = some rest := by
  simp [utf8Step, utf8Len, contOk1_E0, h1, h2, hc]

theorem utf8Step_threeMid {b c1 c2 : Nat} (rest : List Nat)
    (hb : (0xE1 ≤ b ∧ b ≤ 0xEC) ∨ b = 0xEE ∨ b = 0xEF)
    (hc1 : isCont c1 = true) (hc2 : isCont c2 = true) :
    utf8Step (b :: c1 :: c2 :: rest) = some rest := by
  simp only [utf8Step]
  simp [@utf8Len_eq_three b (by omega) (by omega), contOk1_mid3 hb, hc1, hc2]

theorem utf8Step_threeED {c1 c2 : Nat} (rest : List Nat) (h1 : 0x80 ≤ c1) (h2 : c1 ≤ 0x9F)
    (hc : isCont c2 = true) : utf8Step (0xED :: c1 :: c2 :: rest) = some rest := by
  simp [utf8Step, utf8Len, contOk1_ED, h1, h2, hc]

theorem utf8Step_fourF0 {c1 c2 c3 : Nat} (rest : List Nat) (h1 : 0x90 ≤ c1) (h2 : c1 ≤ 0xBF)
    (hc2 : isCont c2 = true) (hc3 : isCont c3 = true) :
    utf8Step (0xF0 :: c1 :: c2 :: c3 :: rest) = some rest := by
  simp [utf8Step, utf8Len, contOk1_F0, h1, h2, hc2, hc3]

theorem utf8Step_fourMid {b c1 c2 c3 : Nat} (rest : List Nat) (h1 : 0xF1 ≤ b) (h2 : b ≤ 0xF3)
    (hc1 : isCont c1 = true) (hc2 : isCont c2 = true) (hc3 : isCont c3 = true) :
    utf8Step (b :: c1 :: c2 :: c3 :: rest) = some rest := by
  simp only [utf8Step]
  simp [@utf8Len_eq_four b (by omega) (by omega), contOk1_mid4 h1 h2, hc1, hc2, hc3]

theorem utf8Step_fourF4 {c1 c2 c3 : Nat} (rest : List Nat) (h1 : 0x80 ≤ c1) (h2 : c1 ≤ 0x8F)
    (hc2 : isCont c2 = true) (hc3 : isCont c3 = true) :
    utf8Step (0xF4 :: c1 :: c2 :: c3 :: rest) = some rest := by
  simp [utf8Step, utf8Len, contOk1_F4, h1, h2, hc2, hc3]

theorem utf8Valid_of_chunks {s : List Nat} (h : Utf8Chunks s) : utf8Valid s = true := by
  induction h with
  | nil => rw [@utf8Valid_step_none [] rfl]; rfl
  | one b rest hb _ ih => rw [utf8Valid_step_some (utf8Step_one rest hb)]; exact ih
  | two b c1 rest hb1 hb2 hc _ ih =>
    rw [utf8Valid_step_some (utf8Step_two rest hb1 hb2 hc)]; exact ih
  | threeE0 c1 c2 rest h1 h2 hc _ ih =>
    rw [utf8Valid_step_some (utf8Step_threeE0 rest h1 h2 hc)]; exact ih
  | threeMid b c1 c2 rest hb hc1 hc2 _ ih =>
    rw [utf8Valid_step_some (utf8Step_threeMid rest hb hc1 hc2)]; exact ih
  | threeED c1 c2 rest h1 h2 hc _ ih =>
    rw [utf8Valid_step_some (utf8Step_threeED rest h1 h2 hc)]; exact ih
  | fourF0 c1 c2 c3 rest h1 h2 hc2 hc3 _ ih =>
    rw [utf8Valid_step_some (utf8Step_fourF0 rest h1 h2 hc2 hc3)]; exact ih
  | fourMid b c1 c2 c3 rest h1 h2 hc1 hc2 hc3 _ ih =>
    rw [utf8Valid_step_some (utf8Step_fourMid rest h1 h2 hc1 hc2 hc3)]; exact ih
  | fourF4 c1 c2 c3 rest h1 h2 hc2 hc3 _ ih =>
    rw [utf8Valid_step_some (utf8Step_fourF4 rest h1 h2 hc2 hc3)]; exact ih

/-- A successful scalar step extends a chunk decomposition of the
remainder to one of the whole sequence. -/
theorem utf8Step_chunks {s r : List Nat} (h : utf8Step s = some r) (hr : Utf8Chunks r) :
    Utf8Chunks s := by
  match s with
  | [] => simp [utf8Step] at h
  | b :: rest =>
    simp only [utf8Step] at h
    by_cases h1 : utf8Len b = 1
    · rw [if_pos h1] at h
      cases h
      exact .one b r (utf8Len_one h1) hr
    · rw [if_neg h1] at h
      by_cases h2 : utf8Len b = 2
      · rw [if_pos h2] at h
        rcases rest with _ | ⟨c1, rest'⟩
        · simp at h
        · cases hcc : contOk1 b c1 with
          | false => simp [hcc] at h
          | true =>
            simp [hcc] at h
            subst h
            exact .two b c1 rest' (utf8Len_two h2).1 (utf8Len_two h2).2
              (by rwa [contOk1_of_le_DF (utf8Len_two h2).2] at hcc) hr
      · rw [if_neg h2] at h
        by_cases h3 : utf8Len b = 3
        · rw [if_pos h3] at h
          rcases rest with _ | ⟨c1, _ | ⟨c2, rest'⟩⟩
          · simp at h
          · simp at h
          · cases hcc : contOk1 b c1 && isCont c2 with
            | false => simp [hcc] at h
            | true =>
              simp [hcc] at h
              subst h
              have hb := utf8Len_three h3
              rw [Bool.and_eq_true] at hcc
              by_cases hE0 : b = 0xE0
              · subst hE0
                rw [contOk1_E0, Bool.and_eq_true, decide_eq_true_eq, decide_eq_true_eq] at hcc
                exact .threeE0 c1 c2 rest' hcc.1.1 hcc.1.2 hcc.2 hr
              · by_cases hED : b = 0xED
                · subst hED
                  rw [contOk1_ED, Bool.and_eq_true, decide_eq_true_eq, decide_eq_true_eq] at hcc
                  exact .threeED c1 c2 rest' hcc.1.1 hcc.1.2 hcc.2 hr
                · have hmid : (0xE1 ≤ b ∧ b ≤ 0xEC) ∨ b = 0xEE ∨ b = 0xEF := by omega
                  rw [contOk1_mid3 hmid] at hcc
                  exact .threeMid b c1 c2 rest' hmid hcc.1 hcc.2 hr
        · rw [if_neg h3] at h
          by_cases h4 : utf8Len b = 4
          · rw [if_pos h4] at h
            rcases rest with _ | ⟨c1, _ | ⟨c2, _ | ⟨c3, rest'⟩⟩⟩
            · simp at h
            · simp at h
            · simp at h
            · cases hcc : contOk1 b c1 && isCont c2 && isCont c3 with
              | false => simp [hcc] at h
              | true =>
                simp [hcc] at h
                subst h
                have hb := utf8Len_four h4
                rw [Bool.and_eq_true, Bool.and_eq_true] at hcc
                by_cases hF0 : b = 0xF0
                · subst hF0
                  rw [contOk1_F0, Bool.and_eq_true, decide_eq_true_eq, decide_eq_true_eq] at hcc
                  exact .fourF0 c1 c2 c3 rest' hcc.1.1.1 hcc.1.1.2 hcc.1.2 hcc.2 hr
                · by_cases hF4 : b = 0xF4
                  · subst hF4
                    rw [contOk1_F4, Bool.and_eq_true, decide_eq_true_eq, decide_eq_true_eq] at hcc
                    exact .fourF4 c1 c2 c3 rest' hcc.1.1.1 hcc.1.1.2 hcc.1.2 hcc.2 hr
                  · have k1 : 0xF1 ≤ b := by omega
                    have k2 : b ≤ 0xF3 := by omega
                    rw [contOk1_mid4 k1 k2] at hcc
                    exact .fourMid b c1 c2 c3 rest' k1 k2 hcc.1.1 hcc.1.2 hcc.2 hr
          · rw [if_neg h4] at h
            simp at h

theorem chunks_of_utf8Valid : ∀ s : List Nat, utf8Valid s = true → Utf8Chunks s := by
  intro s
  match hstep : utf8Step s with
  | none =>
    intro hv
    rw [utf8Valid_step_none hstep] at hv
    rw [List.isEmpty_iff.mp hv]
    exact .nil
  | some r =>
    intro hv
    rw [utf8Valid_step_some hstep] at hv
    exact utf8Step_chunks hstep (chunks_of_utf8Valid r hv)
termination_by s => s.length
decreasing_by
  exact utf8Step_some_lt _ _ hstep

theorem utf8Valid_iff_chunks (s : List Nat) : utf8Valid s = true ↔ Utf8Chunks s :=
  ⟨chunks_of_utf8Valid s, utf8Valid_of_chunks⟩

/-- A newline in a chunk decomposition always sits at a scalar boundary,
so cutting just after it leaves two chunk decompositions. -/
theorem chunks_split {s : List Nat} (hs : Utf8Chunks s) :
    ∀ i, memchr 10 s = some i → Utf8Chunks (s.take (i + 1)) ∧ Utf8Chunks (s.drop (i + 1)) := by
  induction hs with
  | nil => intro i h; simp [memchr] at h
  | one b rest hb hrest ih =>
    intro i h
    by_cases hb10 : b = 10
    · subst hb10
      rw [memchr_cons_self] at h
      cases h
      constructor
      · simp only [List.take_succ_cons, List.take_zero]
        exact .one 10 [] (by omega) .nil
      · simp only [List.drop_succ_cons, List.drop_zero]
        exact hrest
    · obtain ⟨j, hj, rfl⟩ := memchr_cons_ne_some hb10 h
      obtain ⟨ht, hd⟩ := ih j hj
      constructor
      · simp only [List.take_succ_cons]
        exact .one b _ hb ht
      · simp only [List.drop_succ_cons]
        exact hd
  | two b c1 rest hb1 hb2 hc hrest ih =>
    intro i h
    obtain ⟨j1, hj1, rfl⟩ := memchr_cons_ne_some (by omega : b ≠ 10) h
    obtain ⟨j, hj, rfl⟩ := memchr_cons_ne_some (isCont_ne_nl hc) hj1
    obtain ⟨ht, hd⟩ := ih j hj
    constructor
    · simp only [List.take_succ_cons]
      exact .two b c1 _ hb1 hb2 hc ht
    · simp only [List.drop_succ_cons]
      exact hd
  | threeE0 c1 c2 rest h1 h2 hc hrest ih =>
    intro i h
    obtain ⟨j1, hj1, rfl⟩ := memchr_cons_ne_some (by omega : (0xE0 : Nat) ≠ 10) h
    obtain ⟨j2, hj2, rfl⟩ := memchr_cons_ne_some (by omega : c1 ≠ 10) hj1
    obtain ⟨j, hj, rfl⟩ := memchr_cons_ne_some (isCont_ne_nl hc) hj2
    obtain ⟨ht, hd⟩ := ih j hj
    constructor
    · simp only [List.take_succ_cons]
      exact .threeE0 c1 c2 _ h1 h2 hc ht
    · simp only [List.drop_succ_cons]
      exact hd
  | threeMid b c1 c2 rest hb hc1 hc2 hrest ih =>
    intro i h
    obtain ⟨j1, hj1, rfl⟩ := memchr_cons_ne_some (by omega : b ≠ 10) h
    obtain ⟨j2, hj2, rfl⟩ := memchr_cons_ne_some (isCont_ne_nl hc1) hj1
    obtain ⟨j, hj, rfl⟩ := memchr_cons_ne_some (isCont_ne_nl hc2) hj2
    obtain ⟨ht, hd⟩ := ih j hj
    constructor
    · simp only [List.take_succ_cons]
      exact .threeMid b c1 c2 _ hb hc1 hc2 ht
    · simp only [List.drop_succ_cons]
      exact hd
  | threeED c1 c2 rest h1 h2 hc hrest ih =>
    intro i h
    obtain ⟨j1, hj1, rfl⟩ := memchr_cons_ne_some (by omega : (0xED : Nat) ≠ 10) h
    obtain ⟨j2, hj2, rfl⟩ := memchr_cons_ne_some (by omega : c1 ≠ 10) hj1
    obtain ⟨j, hj, rfl⟩ := memchr_cons_ne_some (isCont_ne_nl hc) hj2
    obtain ⟨ht, hd⟩ := ih j hj
    constructor
    · simp only [List.take_succ_cons]
      exact .threeED c1 c2 _ h1 h2 hc ht
    · simp only [List.drop_succ_cons]
      exact hd
  | fourF0 c1 c2 c3 rest h1 h2 hc2 hc3 hrest ih =>
    intro i h
    obtain ⟨j1, hj1, rfl⟩ := memchr_cons_ne_some (by omega : (0xF0 : Nat) ≠ 10) h
    obtain ⟨j2, hj2, rfl⟩ := memchr_cons_ne_some (by omega : c1 ≠ 10) hj1
    obtain ⟨j3, hj3, rfl⟩ := memchr_cons_ne_some (isCont_ne_nl hc2) hj2
    obtain ⟨j, hj, rfl⟩ := memchr_cons_ne_some (isCont_ne_nl hc3) hj3
    obtain ⟨ht, hd⟩ := ih j hj
    constructor
    · simp only [List.take_succ_cons]
      exact .fourF0 c1 c2 c3 _ h1 h2 hc2 hc3 ht
    · simp only [List.drop_succ_cons]
      exact hd
  | fourMid b c1 c2 c3 rest h1 h2 hc1 hc2 hc3 hrest ih =>
    intro i h
    obtain ⟨j1, hj1, rfl⟩ := memchr_cons_ne_some (by omega : b ≠ 10) h
    obtain ⟨j2, hj2, rfl⟩ := memchr_cons_ne_some (isCont_ne_nl hc1) hj1
    obtain ⟨j3, hj3, rfl⟩ := memchr_cons_ne_some (isCont_ne_nl hc2) hj2
    obtain ⟨j, hj, rfl⟩ := memchr_cons_ne_some (isCont_ne_nl hc3) hj3
    obtain ⟨ht, hd⟩ := ih j hj
    constructor
    · simp only [List.take_succ_cons]
      exact .fourMid b c1 c2 c3 _ h1 h2 hc1 hc2 hc3 ht
    · simp only [List.drop_succ_cons]
      exact hd
  | fourF4 c1 c2 c3 rest h1 h2 hc2 hc3 hrest ih =>
    intro i h
    obtain ⟨j1, hj1, rfl⟩ := memchr_cons_ne_some (by omega : (0xF4 : Nat) ≠ 10) h
    obtain ⟨j2, hj2, rfl⟩ := memchr_cons_ne_some (by omega : c1 ≠ 10) hj1
    obtain ⟨j3, hj3, rfl⟩ := memchr_cons_ne_some (isCont_ne_nl hc2) hj2
    obtain ⟨j, hj, rfl⟩ := memchr_cons_ne_some (isCont_ne_nl hc3) hj3
    obtain ⟨ht, hd⟩ := ih j hj
    constructor
    · simp only [List.take_succ_cons]
      exact .fourF4 c1 c2 c3 _ h1 h2 hc2 hc3 ht
    · simp only [List.drop_succ_cons]
      exact hd

/-- Cutting a valid UTF-8 sequence just after a newline leaves two valid
sequences. -/
theorem utf8Valid_split_nl {s : List Nat} {i : Nat} (hv : utf8Valid s = true)
    (h : memchr 10 s = some i) :
    utf8Valid (s.take (i + 1)) = true ∧ utf8Valid (s.drop (i + 1)) = true := by
  obtain ⟨ht, hd⟩ := chunks_split (chunks_of_utf8Valid s hv) i h
  exact ⟨utf8Valid_of_chunks ht, utf8Valid_of_chunks hd⟩

/-- Every terminated segment of a valid UTF-8 stream is valid, and so is
its trailing fragment. -/
theorem utf8Valid_splitTerm_restAfter (s : List Nat) (hv : utf8Valid s = true) :
    (∀ l ∈ splitTerm s, utf8Valid l = true) ∧ utf8Valid (restAfter s) = true := by
  match hm : memchr 10 s with
  | none =>
    rw [splitTerm_of_none hm, restAfter_of_none hm]
    exact ⟨by simp, hv⟩
  | some i =>
    obtain ⟨ht, hd⟩ := utf8Valid_split_nl hv hm
    obtain ⟨ihl, ihr⟩ := utf8Valid_splitTerm_restAfter (s.drop (i + 1)) hd
    rw [splitTerm_of_some hm, restAfter_of_some hm]
    refine ⟨?_, ihr⟩
    intro l hl
    rcases List.mem_cons.mp hl with rfl | hl2
    · exact ht
    · exact ihl l hl2
termination_by s.length
decreasing_by
  have hlt := memchr_some_lt _ _ _ hm
  simp only [List.length_drop]
  omega

/-! ## The `eval_buf` master lemmas -/

theorem splitTerm_decomp_length_le {s bad : List Nat} {pre post : List (List Nat)}
    (h : splitTerm s = pre ++ bad :: post) : pre.flatten.length + bad.length ≤ s.length := by
  have hj := splitTerm_join_restAfter s
  rw [h] at hj
  have hlen := congrArg List.length hj
  simp only [List.flatten_append, List.flatten_cons, List.length_append] at hlen
  omega

/-- The first newline of the live region, given that the already-scanned
part (`buf[0..pos]`) holds none, is the first newline of the unscanned
slice `buf[pos..used]`, shifted by `pos`. -/
theorem memchr_live_slice (buf : List Nat) (used pos : Nat) (hu : used ≤ buf.length)
    (hp : pos ≤ used) (hpre : memchr 10 (buf.take pos) = none) :
    memchr 10 (buf.take used) = (memchr 10 ((buf.take used).drop pos)).map (· + pos) := by
  have htt : (buf.take used).take pos = buf.take pos := by
    rw [List.take_take, Nat.min_eq_left hp]
  have hlen : ((buf.take used).take pos).length = pos := by
    rw [htt]
    simp only [List.length_take]
    omega
  conv_lhs => rw [← List.take_append_drop pos (buf.take used)]
  rw [memchr_append_right 10 _ _ (by rw [htt]; exact hpre), hlen]

/-- `eval_buf`, no validation failure: when every terminated segment of
the live region is valid UTF-8, the scan pushes exactly those segments
(in order), leaves the trailing fragment as the new live region, and
returns no error. -/
theorem eval_buf_ok (buf : List Nat) (used pos : Nat) (lines : List (List Nat))
    (hu : used ≤ buf.length) (hp : pos ≤ used)
    (hpre : memchr 10 (buf.take pos) = none)
    (hval : ∀ l ∈ splitTerm (buf.take used), utf8Valid l = true) :
    eval_buf buf used pos lines =
      (none, buf.drop (used - (restAfter (buf.take used)).length),
       (restAfter (buf.take used)).length,
       lines ++ splitTerm (buf.take used)) := by
  have hlive_len : (buf.take used).length = used := by
    simp only [List.length_take]
    omega
  match hm : memchr 10 ((buf.take used).drop pos) with
  | none =>
    have hln : memchr 10 (buf.take used) = none := by
      rw [memchr_live_slice buf used pos hu hp hpre, hm]
      rfl
    rw [eval_buf.eq_def, hm, restAfter_of_none hln, splitTerm_of_none hln, hlive_len]
    simp
  | some inewline =>
    have hsl : inewline < used - pos := by
      have := memchr_some_lt _ _ _ hm
      simp only [List.length_drop, hlive_len] at this
      omega
    have hcut : pos + inewline + 1 ≤ used := by omega
    have hln : memchr 10 (buf.take used) = some (pos + inewline) := by
      rw [memchr_live_slice buf used pos hu hp hpre, hm]
      simp [Nat.add_comm]
    have hseg : splitTerm (buf.take used) =
        (buf.take used).take (pos + inewline + 1) ::
          splitTerm ((buf.take used).drop (pos + inewline + 1)) := splitTerm_of_some hln
    have htt : (buf.take used).take (pos + inewline + 1) = buf.take (pos + inewline + 1) := by
      rw [List.take_take, Nat.min_eq_left hcut]
    have hdt : (buf.take used).drop (pos + inewline + 1) =
        (buf.drop (pos + inewline + 1)).take (used - (pos + inewline + 1)) :=
      List.drop_take used (pos + inewline + 1) buf
    have hvhead : utf8Valid (buf.take (pos + inewline + 1)) = true := by
      have := hval _ (by rw [hseg]; exact List.mem_cons_self _ _)
      rwa [htt] at this
    have hrest_eq : restAfter (buf.take used) =
        restAfter ((buf.take used).drop (pos + inewline + 1)) := restAfter_of_some hln
    have hRle : (restAfter (buf.take used)).length ≤ used - (pos + inewline + 1) := by
      have h1 := restAfter_length_le ((buf.take used).drop (pos + inewline + 1))
      simp only [List.length_drop, hlive_len] at h1
      rw [hrest_eq]
      exact h1
    have ih := eval_buf_ok (buf.drop (pos + inewline + 1)) (used - (pos + inewline + 1)) 0
      (lines ++ [buf.take (pos + inewline + 1)])
      (by simp only [List.length_drop]; omega) (Nat.zero_le _) rfl
      (by
        intro x hx
        rw [← hdt] at hx
        apply hval
        rw [hseg]
        exact List.mem_cons_of_mem _ hx)
    rw [eval_buf.eq_def, hm]
    simp only [u8array_to_string, hvhead, if_pos, ih, ← hdt, ← hrest_eq]
    have harith : (buf.drop (pos + inewline + 1)).drop
        (used - (pos + inewline + 1) - (restAfter (buf.take used)).length) =
        buf.drop (used - (restAfter (buf.take used)).length) := by
      rw [List.drop_drop]
      congr 1
      omega
    rw [harith, hseg, htt]
    simp

/-- `eval_buf`, validation failure: when the segments of the live region
are some valid ones, then an invalid one, the valid ones are pushed, the
bytes through the invalid segment are consumed, and the invalid-data
error is returned. -/
theorem eval_buf_err (buf : List Nat) (used pos : Nat) (lines : List (List Nat))
    {bad : List Nat} {pre post : List (List Nat)}
    (hu : used ≤ buf.length) (hp : pos ≤ used)
    (hpre : memchr 10 (buf.take pos) = none)
    (hseg : splitTerm (buf.take used) = pre ++ bad :: post)
    (hpreval : ∀ l ∈ pre, utf8Valid l = true) (hbad : utf8Valid bad = false) :
    eval_buf buf used pos lines =
      (some .invalidData, buf.drop (pre.flatten.length + bad.length),
       used - (pre.flatten.length + bad.length), lines ++ pre) := by
  have hlive_len : (buf.take used).length = used := by
    simp only [List.length_take]
    omega
  match hm : memchr 10 ((buf.take used).drop pos) with
  | none =>
    exfalso
    have hln : memchr 10 (buf.take used) = none := by
      rw [memchr_live_slice buf used pos hu hp hpre, hm]
      rfl
    rw [splitTerm_of_none hln] at hseg
    exact List.noConfusion (List.append_eq_nil.mp hseg.symm).2
  | some inewline =>
    have hsl : inewline < used - pos := by
      have := memchr_some_lt _ _ _ hm
      simp only [List.length_drop, hlive_len] at this
      omega
    have hcut : pos + inewline + 1 ≤ used := by omega
    have hln : memchr 10 (buf.take used) = some (pos + inewline) := by
      rw [memchr_live_slice buf used pos hu hp hpre, hm]
      simp [Nat.add_comm]
    have hseg0 : splitTerm (buf.take used) =
        (buf.take used).take (pos + inewline + 1) ::
          splitTerm ((buf.take used).drop (pos + inewline + 1)) := splitTerm_of_some hln
    have htt : (buf.take used).take (pos + inewline + 1) = buf.take (pos + inewline + 1) := by
      rw [List.take_take, Nat.min_eq_left hcut]
    have hdt : (buf.take used).drop (pos + inewline + 1) =
        (buf.drop (pos + inewline + 1)).take (used - (pos + inewline + 1)) :=
      List.drop_take used (pos + inewline + 1) buf
    have hheadlen : (buf.take (pos + inewline + 1)).length = pos + inewline + 1 := by
      simp only [List.length_take]
      omega
    match pre with
    | [] =>
      have hbadeq : bad = buf.take (pos + inewline + 1) := by
        rw [hseg0] at hseg
        simp only [List.nil_append] at hseg
        rw [← htt]
        exact (List.cons.injEq _ _ _ _ ▸ hseg.symm).1
      rw [eval_buf.eq_def, hm]
      simp only [u8array_to_string, ← hbadeq, hbad]
      simp [hbadeq, hheadlen]
    | p :: pre2 =>
      have hpeq : p = buf.take (pos + inewline + 1) ∧
          splitTerm ((buf.take used).drop (pos + inewline + 1)) = pre2 ++ bad :: post := by
        rw [hseg0] at hseg
        simp only [List.cons_append, List.cons.injEq] at hseg
        exact ⟨by rw [← htt]; exact hseg.1.symm, hseg.2⟩
      have hvp : utf8Valid (buf.take (pos + inewline + 1)) = true := by
        rw [← hpeq.1]
        exact hpreval p (List.mem_cons_self _ _)
      have hK2 : pre2.flatten.length + bad.length ≤ used - (pos + inewline + 1) := by
        have := splitTerm_decomp_length_le (hdt ▸ hpeq.2)
        simp only [List.length_take, List.length_drop] at this
        omega
      have ih := eval_buf_err (buf.drop (pos + inewline + 1)) (used - (pos + inewline + 1)) 0
        (lines ++ [p]) (by simp only [List.length_drop]; omega) (Nat.zero_le _) rfl
        (hdt ▸ hpeq.2) (fun l hl => hpreval l (List.mem_cons_of_mem _ hl)) hbad
      have hvp2 : utf8Valid p = true := by
        rw [hpeq.1]
        exact hvp
      rw [eval_buf.eq_def, hm]
      simp only [u8array_to_string, ← hpeq.1, hvp2, if_pos, ih]
      have hplen : p.length = pos + inewline + 1 := by
        rw [hpeq.1]
        exact hheadlen
      have harith1 : (buf.drop (pos + inewline + 1)).drop
          (pre2.flatten.length + bad.length) =
          buf.drop ((p :: pre2).flatten.length + bad.length) := by
        rw [List.drop_drop]
        congr 1
        simp only [List.flatten_cons, List.length_append, hplen]
        omega
      have harith2 : used - (pos + inewline + 1) - (pre2.flatten.length + bad.length) =
          used - ((p :: pre2).flatten.length + bad.length) := by
        simp only [List.flatten_cons, List.length_append, hplen]
        omega
      rw [harith1, harith2]
      simp
termination_by used
decreasing_by
  omega

/-! ## `read_once` step lemmas -/

theorem grow_buf_len_ge (buf : List Nat) (used : Nat) :
    used + BUFFER_SIZE ≤ (grow_buf buf used).length := by
  unfold grow_buf resizeTo
  split
  · simp only [List.length_append, List.length_replicate]
    omega
  · omega

theorem grow_buf_take {buf : List Nat} {used : Nat} (h : used ≤ buf.length) (n : Nat)
    (hn : n ≤ used) : (grow_buf buf used).take n = buf.take n := by
  unfold grow_buf resizeTo
  split
  · exact List.take_append_of_le_length (by omega)
  · rfl

theorem grow_buf_eq_append (buf : List Nat) (used : Nat) :
    ∃ k, grow_buf buf used = buf ++ List.replicate k 0 := by
  unfold grow_buf resizeTo
  split
  · exact ⟨_, rfl⟩
  · exact ⟨0, by simp⟩

theorem take_write (A c D : List Nat) (n : Nat) (hA : A.length = n) :
    (A ++ c ++ D).take (n + c.length) = A ++ c := by
  subst hA
  rw [List.append_assoc, List.take_append, List.take_append_of_le_length (le_refl _),
    List.take_length]

theorem restAfter_suffix (s : List Nat) : ∃ k, restAfter s = s.drop k ∧ k ≤ s.length := by
  match hm : memchr 10 s with
  | none => exact ⟨0, by rw [restAfter_of_none hm, List.drop_zero], Nat.zero_le _⟩
  | some i =>
    have hi := memchr_some_lt _ _ _ hm
    obtain ⟨k, hk, hkle⟩ := restAfter_suffix (s.drop (i + 1))
    refine ⟨k + (i + 1), ?_, ?_⟩
    · rw [restAfter_of_some hm, hk, List.drop_drop]
      congr 1
      omega
    · simp only [List.length_drop] at hkle
      omega
termination_by s.length
decreasing_by
  simp only [List.length_drop]
  omega

theorem restAfter_eq_drop (s : List Nat) :
    restAfter s = s.drop (s.length - (restAfter s).length) := by
  obtain ⟨k, hk, hkle⟩ := restAfter_suffix s
  rw [hk]
  congr 1
  simp only [List.length_drop]
  omega

theorem read_once_wouldBlock {lr : LineReader} (h : lr.at_eof = false) :
    read_once lr .wouldBlock = (.ok true, { lr with buf := grow_buf lr.buf lr.used }) := by
  simp [read_once, h]

theorem read_once_interrupted {lr : LineReader} (h : lr.at_eof = false) :
    read_once lr .interrupted = (.ok true, { lr with buf := grow_buf lr.buf lr.used }) := by
  simp [read_once, h]

theorem read_once_fatal {lr : LineReader} (h : lr.at_eof = false) (code : Nat) :
    read_once lr (.fatal code) =
      (.error (.fatal code), { lr with buf := grow_buf lr.buf lr.used }) := by
  simp [read_once, h]

theorem read_once_at_eof {lr : LineReader} (h : lr.at_eof = true) (ev : ReadEvent) :
    read_once lr ev = (.ok false, lr) := by
  simp [read_once, h]

theorem read_once_eof_empty {lr : LineReader} (h : lr.at_eof = false) (hu : lr.used = 0) :
    read_once lr (.data []) =
      (.ok true, { lr with at_eof := true, buf := grow_buf lr.buf lr.used }) := by
  simp [read_once, h, hu]

theorem read_once_eof_flush_ok {lr : LineReader} (h : lr.at_eof = false) (hu : 0 < lr.used)
    (hw : lr.used ≤ lr.buf.length) (hv : utf8Valid (live lr) = true) :
    read_once lr (.data []) =
      (.ok true, { at_eof := true, buf := [], used := 0, lines := lr.lines ++ [live lr] }) := by
  have htake : (grow_buf lr.buf lr.used).take lr.used = live lr := grow_buf_take hw _ (le_refl _)
  simp [read_once, h, hu, htake, u8array_to_string, hv]

theorem read_once_eof_flush_err {lr : LineReader} (h : lr.at_eof = false) (hu : 0 < lr.used)
    (hw : lr.used ≤ lr.buf.length) (hv : utf8Valid (live lr) = false) :
    read_once lr (.data []) = (.error .invalidData, { lr with buf := [] }) := by
  have htake : (grow_buf lr.buf lr.used).take lr.used = live lr := grow_buf_take hw _ (le_refl _)
  simp [read_once, h, hu, htake, u8array_to_string, hv]

/-- One data chunk, no validation failure: `read_once` returns `Ok(true)`
and the run invariant advances by the chunk. -/
theorem read_once_data_inv {lr : LineReader} {P c : List Nat} (hinv : RunInv P lr)
    (hc : c ≠ []) (hclen : c.length ≤ BUFFER_SIZE)
    (hval : ∀ l ∈ splitTerm (P ++ c), utf8Valid l = true) :
    (read_once lr (.data c)).1 = .ok true ∧
      RunInv (P ++ c) (read_once lr (.data c)).2 := by
  obtain ⟨heof, hwf, hlive, hlines⟩ := hinv
  have hlivelen : (live lr).length = lr.used := by
    simp only [live, List.length_take]
    omega
  have hlen0 : lr.used + BUFFER_SIZE ≤ (grow_buf lr.buf lr.used).length :=
    grow_buf_len_ge lr.buf lr.used
  have htake0 : (grow_buf lr.buf lr.used).take lr.used = live lr :=
    grow_buf_take hwf _ (le_refl _)
  have hAlen : ((grow_buf lr.buf lr.used).take lr.used).length = lr.used := by
    rw [htake0]
    exact hlivelen
  have hWlen : lr.used + c.length ≤
      ((grow_buf lr.buf lr.used).take lr.used ++ c ++
        (grow_buf lr.buf lr.used).drop (lr.used + c.length)).length := by
    simp only [List.length_append, List.length_drop, hAlen]
    omega
  have hWtake : ((grow_buf lr.buf lr.used).take lr.used ++ c ++
      (grow_buf lr.buf lr.used).drop (lr.used + c.length)).take (lr.used + c.length) =
      live lr ++ c := by
    rw [take_write _ _ _ _ hAlen, htake0]
  have hWpre : memchr 10 (((grow_buf lr.buf lr.used).take lr.used ++ c ++
      (grow_buf lr.buf lr.used).drop (lr.used + c.length)).take lr.used) = none := by
    have h1 : ((grow_buf lr.buf lr.used).take lr.used ++ c ++
        (grow_buf lr.buf lr.used).drop (lr.used + c.length)).take lr.used = live lr := by
      have h0 : ((grow_buf lr.buf lr.used).take lr.used ++ c ++
          (grow_buf lr.buf lr.used).drop (lr.used + c.length)).take lr.used =
          (((grow_buf lr.buf lr.used).take lr.used ++ c ++
            (grow_buf lr.buf lr.used).drop (lr.used + c.length)).take
              (lr.used + c.length)).take lr.used := by
        rw [List.take_take, Nat.min_eq_left (by omega)]
      rw [h0, hWtake, ← hlivelen, List.take_append_of_le_length (le_refl _), List.take_length]
    rw [h1, hlive]
    exact restAfter_no_nl P
  have hval2 : ∀ l ∈ splitTerm (((grow_buf lr.buf lr.used).take lr.used ++ c ++
      (grow_buf lr.buf lr.used).drop (lr.used + c.length)).take (lr.used + c.length)),
      utf8Valid l = true := by
    intro l hl
    rw [hWtake, hlive] at hl
    apply hval
    rw [splitTerm_append]
    exact List.mem_append_right _ hl
  have heval := eval_buf_ok _ (lr.used + c.length) lr.used lr.lines hWlen (by omega) hWpre hval2
  rw [hWtake, hlive, ← restAfter_append] at heval
  have hclen0 : ¬(c.length = 0) := by
    simpa using hc
  have hro : read_once lr (.data c) = (.ok true,
      { lr with
        buf := ((grow_buf lr.buf lr.used).take lr.used ++ c ++
          (grow_buf lr.buf lr.used).drop (lr.used + c.length)).drop
            (lr.used + c.length - (restAfter (P ++ c)).length),
        used := (restAfter (P ++ c)).length,
        lines := lr.lines ++ splitTerm (restAfter P ++ c) }) := by
    simp [-List.append_assoc, read_once, heof, hclen0, heval]
  rw [hro]
  have hlen_rc : (restAfter P ++ c).length = lr.used + c.length := by
    simp only [List.length_append, ← hlive, hlivelen]
  have hRle : (restAfter (P ++ c)).length ≤ lr.used + c.length := by
    rw [restAfter_append]
    have := restAfter_length_le (restAfter P ++ c)
    omega
  refine ⟨rfl, heof, ?_, ?_, ?_⟩
  · -- used ≤ buf.length in the new state
    simp only [List.length_drop]
    omega
  · -- the new live region is the trailing fragment of P ++ c
    show (((grow_buf lr.buf lr.used).take lr.used ++ c ++
        (grow_buf lr.buf lr.used).drop (lr.used + c.length)).drop
          (lr.used + c.length - (restAfter (P ++ c)).length)).take
            ((restAfter (P ++ c)).length) = restAfter (P ++ c)
    have hld : ((((grow_buf lr.buf lr.used).take lr.used ++ c ++
        (grow_buf lr.buf lr.used).drop (lr.used + c.length)).take (lr.used + c.length)).drop
          (lr.used + c.length - (restAfter (P ++ c)).length)) =
        (((grow_buf lr.buf lr.used).take lr.used ++ c ++
          (grow_buf lr.buf lr.used).drop (lr.used + c.length)).drop
            (lr.used + c.length - (restAfter (P ++ c)).length)).take
              ((restAfter (P ++ c)).length) := by
      rw [List.drop_take]
      congr 1
      omega
    rw [← hld, hWtake, hlive]
    conv_rhs => rw [restAfter_append, restAfter_eq_drop (restAfter P ++ c)]
    rw [hlen_rc, ← restAfter_append]
  · -- the accumulated lines are the terminated segments of P ++ c
    show lr.lines ++ splitTerm (restAfter P ++ c) = splitTerm (P ++ c)
    rw [hlines]
    exact (splitTerm_append P c).symm

/-! ## Run-level lemmas -/

theorem RunInv_grow {P : List Nat} {lr : LineReader} (hinv : RunInv P lr) :
    RunInv P { lr with buf := grow_buf lr.buf lr.used } := by
  obtain ⟨h1, h2, h3, h4⟩ := hinv
  refine ⟨h1, ?_, ?_, h4⟩
  · exact le_trans (Nat.le_add_right _ _) (grow_buf_len_ge lr.buf lr.used)
  · show (grow_buf lr.buf lr.used).take lr.used = restAfter P
    rw [grow_buf_take h2 _ (le_refl _)]
    exact h3

theorem RunInv_initial : RunInv [] from_nonblocking := by
  refine ⟨rfl, le_refl _, ?_, ?_⟩
  · show List.take 0 [] = restAfter []
    rw [@restAfter_of_none [] rfl]
    rfl
  · show ([] : List (List Nat)) = splitTerm []
    rw [@splitTerm_of_none [] rfl]

theorem runEvents_cons_ok {lr : LineReader} {ev : ReadEvent} (b : Bool) {st : LineReader}
    (h : read_once lr ev = (.ok b, st)) (rest : List ReadEvent) :
    runEvents lr (ev :: rest) = runEvents st rest := by
  simp only [runEvents, h]

theorem runEvents_cons_err {lr : LineReader} {ev : ReadEvent} {e : IOErr} {st : LineReader}
    (h : read_once lr ev = (.error e, st)) (rest : List ReadEvent) :
    runEvents lr (ev :: rest) = (some e, st) := by
  simp only [runEvents, h]

/-- Driving an error-free script of mid-stream events advances the run
invariant by the delivered bytes. -/
theorem runEvents_inv : ∀ (evs : List ReadEvent) {P : List Nat} {lr : LineReader},
    RunInv P lr → (∀ ev ∈ evs, midEvent ev) →
    (∀ l ∈ splitTerm (P ++ scriptData evs), utf8Valid l = true) →
    (runEvents lr evs).1 = none ∧ RunInv (P ++ scriptData evs) (runEvents lr evs).2 := by
  intro evs
  induction evs with
  | nil =>
    intro P lr hinv _ _
    refine ⟨rfl, ?_⟩
    rw [show scriptData [] = [] from rfl, List.append_nil]
    exact hinv
  | cons ev rest ih =>
    intro P lr hinv hmid hval
    match ev with
    | .data c =>
      obtain ⟨hc, hclen⟩ := hmid _ (List.mem_cons_self _ _)
      have hsd : scriptData (ReadEvent.data c :: rest) = c ++ scriptData rest := rfl
      have hassoc : P ++ scriptData (ReadEvent.data c :: rest) = (P ++ c) ++ scriptData rest := by
        rw [hsd, List.append_assoc]
      have hval1 : ∀ l ∈ splitTerm (P ++ c), utf8Valid l = true := by
        intro l hl
        apply hval
        rw [hassoc]
        exact splitTerm_mem_append _ _ hl
      obtain ⟨hres, hinv2⟩ := read_once_data_inv hinv hc hclen hval1
      have hq : read_once lr (.data c) = (.ok true, (read_once lr (.data c)).2) :=
        Prod.ext hres rfl
      rw [runEvents_cons_ok true hq rest, hassoc]
      exact ih hinv2 (fun e he => hmid e (List.mem_cons_of_mem _ he)) (by rw [← hassoc]; exact hval)
    | .wouldBlock =>
      have hro := read_once_wouldBlock hinv.1
      rw [runEvents_cons_ok true hro rest]
      exact ih (RunInv_grow hinv) (fun e he => hmid e (List.mem_cons_of_mem _ he)) hval
    | .interrupted =>
      have hro := read_once_interrupted hinv.1
      rw [runEvents_cons_ok true hro rest]
      exact ih (RunInv_grow hinv) (fun e he => hmid e (List.mem_cons_of_mem _ he)) hval
    | .fatal code =>
      exact absurd (hmid _ (List.mem_cons_self _ _)) (by simp [midEvent])

theorem runEvents_append (a b : List ReadEvent) : ∀ (lr : LineReader),
    (runEvents lr a).1 = none →
    runEvents lr (a ++ b) = runEvents (runEvents lr a).2 b := by
  induction a with
  | nil => intro lr _; rfl
  | cons ev rest ih =>
    intro lr h
    match hq : read_once lr ev with
    | (.error e, st) =>
      rw [runEvents_cons_err hq rest] at h
      simp at h
    | (.ok bb, st) =>
      rw [runEvents_cons_ok bb hq rest] at h
      rw [List.cons_append, runEvents_cons_ok bb hq (rest ++ b), runEvents_cons_ok bb hq rest]
      exact ih st h

theorem splitLines_flatten (s : List Nat) : (splitLines s).flatten = s := by
  have hj := splitTerm_join_restAfter s
  unfold splitLines
  split
  · next hres =>
    rw [hres, List.append_nil] at hj
    simpa using hj
  · simpa using hj

theorem splitLines_length (s : List Nat) :
    (splitLines s).length = s.count 10 + (if restAfter s = [] then 0 else 1) := by
  unfold splitLines
  rw [List.length_append, splitTerm_length_count]
  split <;> simp

/-! ## Further helper lemmas for the claims -/

theorem utf8Valid_eq_F : ∀ (fuel : Nat) (s : List Nat), s.length ≤ fuel →
    utf8Valid s = utf8ValidF fuel s := by
  intro fuel
  induction fuel with
  | zero =>
    intro s hs
    have hnil : s = [] := List.length_eq_zero.mp (Nat.le_zero.mp hs)
    subst hnil
    rw [@utf8Valid_step_none [] rfl]
    rfl
  | succ fuel ih =>
    intro s hs
    match hstep : utf8Step s with
    | none =>
      rw [utf8Valid_step_none hstep]
      simp [utf8ValidF, hstep]
    | some r =>
      rw [utf8Valid_step_some hstep]
      have hlt := utf8Step_some_lt _ _ hstep
      simp only [utf8ValidF, hstep]
      exact ih r (by omega)

theorem splitTerm_eq_F : ∀ (fuel : Nat) (s : List Nat), s.length ≤ fuel →
    splitTerm s = splitTermF fuel s := by
  intro fuel
  induction fuel with
  | zero =>
    intro s hs
    have hnil : s = [] := List.length_eq_zero.mp (Nat.le_zero.mp hs)
    subst hnil
    rw [@splitTerm_of_none [] rfl]
    rfl
  | succ fuel ih =>
    intro s hs
    match hm : memchr 10 s with
    | none =>
      rw [splitTerm_of_none hm]
      simp [splitTermF, hm]
    | some i =>
      rw [splitTerm_of_some hm]
      have hlt := memchr_some_lt _ _ _ hm
      simp only [splitTermF, hm]
      rw [ih (s.drop (i + 1)) (by simp only [List.length_drop]; omega)]

theorem runEvents_at_eof {lr : LineReader} (h : lr.at_eof = true) :
    ∀ evs, runEvents lr evs = (none, lr) := by
  intro evs
  induction evs with
  | nil => rfl
  | cons ev rest ih =>
    rw [runEvents_cons_ok false (read_once_at_eof h ev) rest]
    exact ih

/-- `eval_buf` keeps the live count within the buffer, on every exit. -/
theorem eval_buf_wf : ∀ (buf : List Nat) (used pos : Nat) (lines : List (List Nat)),
    used ≤ buf.length →
    (eval_buf buf used pos lines).2.2.1 ≤ (eval_buf buf used pos lines).2.1.length := by
  intro buf used pos lines hu
  match hm : memchr 10 ((buf.take used).drop pos) with
  | none =>
    rw [eval_buf.eq_def, hm]
    exact hu
  | some i =>
    rw [eval_buf.eq_def, hm]
    dsimp only
    cases hv : u8array_to_string (buf.take (pos + i + 1)) with
    | error e =>
      simp only [List.length_drop]
      omega
    | ok s =>
      exact eval_buf_wf (buf.drop (pos + i + 1)) (used - (pos + i + 1)) 0 (lines ++ [s])
        (by simp only [List.length_drop]; omega)
termination_by buf _ _ _ => buf.length
decreasing_by
  have hlt := memchr_some_lt _ _ _ hm
  simp only [List.length_drop, List.length_take] at hlt ⊢
  omega

theorem exists_first_invalid {L : List (List Nat)}
    (h : ¬ ∀ l ∈ L, utf8Valid l = true) :
    ∃ pre bad post, L = pre ++ bad :: post ∧ (∀ l ∈ pre, utf8Valid l = true) ∧
      utf8Valid bad = false := by
  induction L with
  | nil => exact absurd (by simp) h
  | cons a L2 ih =>
    by_cases ha : utf8Valid a = true
    · have h2 : ¬ ∀ l ∈ L2, utf8Valid l = true := by
        intro hall
        apply h
        intro l hl
        rcases List.mem_cons.mp hl with rfl | hl2
        · exact ha
        · exact hall l hl2
      obtain ⟨pre, bad, post, hdec, hpre, hbad⟩ := ih h2
      exact ⟨a :: pre, bad, post, by rw [hdec, List.cons_append],
        fun l hl => by
          rcases List.mem_cons.mp hl with rfl | hl2
          · exact ha
          · exact hpre l hl2, hbad⟩
    · exact ⟨[], a, L2, rfl, by simp, Bool.not_eq_true _ ▸ (by simpa using ha)⟩

/-- When `eval_buf` returns no error from a state whose scanned prefix is
newline-free, the resulting live region is newline-free. -/
theorem eval_buf_ok_noNl (buf : List Nat) (used pos : Nat) (lines : List (List Nat))
    (hu : used ≤ buf.length) (hp : pos ≤ used)
    (hpre : memchr 10 (buf.take pos) = none)
    (hres : (eval_buf buf used pos lines).1 = none) :
    memchr 10 ((eval_buf buf used pos lines).2.1.take (eval_buf buf used pos lines).2.2.1)
      = none := by
  by_cases hvall : ∀ l ∈ splitTerm (buf.take used), utf8Valid l = true
  · have heval := eval_buf_ok buf used pos lines hu hp hpre hvall
    rw [heval]
    have hR : (restAfter (buf.take used)).length ≤ used := by
      have h1 := restAfter_length_le (buf.take used)
      simp only [List.length_take] at h1
      omega
    have hld : (buf.drop (used - (restAfter (buf.take used)).length)).take
        ((restAfter (buf.take used)).length) =
        (buf.take used).drop (used - (restAfter (buf.take used)).length) := by
      rw [List.drop_take]
      congr 1
      omega
    show memchr 10 ((buf.drop (used - (restAfter (buf.take used)).length)).take
        ((restAfter (buf.take used)).length)) = none
    rw [hld]
    have hrd : (buf.take used).drop (used - (restAfter (buf.take used)).length) =
        restAfter (buf.take used) := by
      conv_rhs => rw [restAfter_eq_drop (buf.take used)]
      congr 1
      simp only [List.length_take]
      omega
    rw [hrd]
    exact restAfter_no_nl _
  · exfalso
    obtain ⟨pre, bad, post, hdec, hprev, hbad⟩ := exists_first_invalid hvall
    have := eval_buf_err buf used pos lines hu hp hpre hdec hprev hbad
    rw [this] at hres
    cases hres

/-- Dropping the bytes of the consumed segments plus the bad one leaves
the remaining segments and the trailing fragment. -/
theorem splitTerm_drop_decomp {s bad : List Nat} {pre post : List (List Nat)}
    (h : splitTerm s = pre ++ bad :: post) :
    s.drop (pre.flatten.length + bad.length) = post.flatten ++ restAfter s := by
  have hjoin := splitTerm_join_restAfter s
  rw [h] at hjoin
  have hshape : s = (pre.flatten ++ bad) ++ (post.flatten ++ restAfter s) := by
    conv_lhs => rw [← hjoin]
    simp [List.flatten_append, List.flatten_cons, List.append_assoc]
  calc s.drop (pre.flatten.length + bad.length)
      = ((pre.flatten ++ bad) ++ (post.flatten ++ restAfter s)).drop
          ((pre.flatten ++ bad).length) := by
        conv_lhs => rw [hshape]
        rw [List.length_append]
    _ = post.flatten ++ restAfter s := List.drop_left _ _

/-- One data chunk hitting an invalid candidate: `read_once` returns the
invalid-data error; the candidates before it are pushed and the bytes
through the bad candidate are consumed. -/
theorem read_once_data_err {lr : LineReader} {c bad : List Nat} {pre post : List (List Nat)}
    (heof : lr.at_eof = false) (hwf : lr.used ≤ lr.buf.length)
    (hnl : memchr 10 (live lr) = none)
    (hc : c ≠ []) (hclen : c.length ≤ BUFFER_SIZE)
    (hseg : splitTerm (live lr ++ c) = pre ++ bad :: post)
    (hpreval : ∀ l ∈ pre, utf8Valid l = true) (hbad : utf8Valid bad = false) :
    (read_once lr (.data c)).1 = .error .invalidData ∧
    (read_once lr (.data c)).2.lines = lr.lines ++ pre ∧
    (read_once lr (.data c)).2.at_eof = false ∧
    (read_once lr (.data c)).2.used ≤ (read_once lr (.data c)).2.buf.length ∧
    live (read_once lr (.data c)).2 = post.flatten ++ restAfter (live lr ++ c) := by
  have hlivelen : (live lr).length = lr.used := by
    simp only [live, List.length_take]
    omega
  have hlen0 : lr.used + BUFFER_SIZE ≤ (grow_buf lr.buf lr.used).length :=
    grow_buf_len_ge lr.buf lr.used
  have htake0 : (grow_buf lr.buf lr.used).take lr.used = live lr :=
    grow_buf_take hwf _ (le_refl _)
  have hAlen : ((grow_buf lr.buf lr.used).take lr.used).length = lr.used := by
    rw [htake0]
    exact hlivelen
  have hWlen : lr.used + c.length ≤
      ((grow_buf lr.buf lr.used).take lr.used ++ c ++
        (grow_buf lr.buf lr.used).drop (lr.used + c.length)).length := by
    simp only [List.length_append, List.length_drop, hAlen]
    omega
  have hWtake : ((grow_buf lr.buf lr.used).take lr.used ++ c ++
      (grow_buf lr.buf lr.used).drop (lr.used + c.length)).take (lr.used + c.length) =
      live lr ++ c := by
    rw [take_write _ _ _ _ hAlen, htake0]
  have hWpre : memchr 10 (((grow_buf lr.buf lr.used).take lr.used ++ c ++
      (grow_buf lr.buf lr.used).drop (lr.used + c.length)).take lr.used) = none := by
    have h0 : ((grow_buf lr.buf lr.used).take lr.used ++ c ++
        (grow_buf lr.buf lr.used).drop (lr.used + c.length)).take lr.used =
        (((grow_buf lr.buf lr.used).take lr.used ++ c ++
          (grow_buf lr.buf lr.used).drop (lr.used + c.length)).take
            (lr.used + c.length)).take lr.used := by
      rw [List.take_take, Nat.min_eq_left (by omega)]
    rw [h0, hWtake, ← hlivelen, List.take_append_of_le_length (le_refl _), List.take_length]
    exact hnl
  have hseg2 : splitTerm (((grow_buf lr.buf lr.used).take lr.used ++ c ++
      (grow_buf lr.buf lr.used).drop (lr.used + c.length)).take (lr.used + c.length)) =
      pre ++ bad :: post := by
    rw [hWtake]
    exact hseg
  have heval := eval_buf_err _ (lr.used + c.length) lr.used lr.lines hWlen (by omega) hWpre
    hseg2 hpreval hbad
  have hK : pre.flatten.length + bad.length ≤ lr.used + c.length := by
    have := splitTerm_decomp_length_le hseg
    simp only [List.length_append, hlivelen] at this
    omega
  have hclen0 : ¬(c.length = 0) := by
    simpa using hc
  have hro : read_once lr (.data c) = (.error .invalidData,
      { lr with
        buf := ((grow_buf lr.buf lr.used).take lr.used ++ c ++
          (grow_buf lr.buf lr.used).drop (lr.used + c.length)).drop
            (pre.flatten.length + bad.length),
        used := lr.used + c.length - (pre.flatten.length + bad.length),
        lines := lr.lines ++ pre }) := by
    simp [-List.append_assoc, read_once, heof, hclen0, heval]
  rw [hro]
  refine ⟨rfl, rfl, heof, ?_, ?_⟩
  · simp only [List.length_drop]
    omega
  · show (((grow_buf lr.buf lr.used).take lr.used ++ c ++
        (grow_buf lr.buf lr.used).drop (lr.used + c.length)).drop
          (pre.flatten.length + bad.length)).take
            (lr.used + c.length - (pre.flatten.length + bad.length)) =
        post.flatten ++ restAfter (live lr ++ c)
    have hld : (((grow_buf lr.buf lr.used).take lr.used ++ c ++
        (grow_buf lr.buf lr.used).drop (lr.used + c.length)).drop
          (pre.flatten.length + bad.length)).take
            (lr.used + c.length - (pre.flatten.length + bad.length)) =
        (((grow_buf lr.buf lr.used).take lr.used ++ c ++
          (grow_buf lr.buf lr.used).drop (lr.used + c.length)).take
            (lr.used + c.length)).drop (pre.flatten.length + bad.length) := by
      rw [List.drop_take]
    rw [hld, hWtake]
    exact splitTerm_drop_decomp hseg

/-! ## Claim theorems -/

/-- C3: once `eof` is true it stays true for the remaining life of the
object: every later `read_once` returns `Ok(false)` with the state
(buffer, used, pending lines, at_eof) completely unchanged, any number of
further `read_once` calls leave the state fixed, and draining the lines
does not clear the flag. -/
theorem C3_eof_monotone (lr : LineReader) (h : eof lr = true) (ev : ReadEvent)
    (evs : List ReadEvent) :
    read_once lr ev = (.ok false, lr) ∧
    runEvents lr evs = (none, lr) ∧
    eof (lines_get lr).2 = true ∧
    eof lr = true :=
  ⟨read_once_at_eof h ev, runEvents_at_eof h evs, h, h⟩

theorem C3_eof_monotone_witness :
    eof (LineReader.mk true [0] 0 [[104, 10]]) = true ∧
    (read_once (LineReader.mk true [0] 0 [[104, 10]]) (.data [98]) =
        (.ok false, LineReader.mk true [0] 0 [[104, 10]]) ∧
      runEvents (LineReader.mk true [0] 0 [[104, 10]]) [.wouldBlock, .fatal 5] =
        (none, LineReader.mk true [0] 0 [[104, 10]]) ∧
      eof (lines_get (LineReader.mk true [0] 0 [[104, 10]])).2 = true ∧
      eof (LineReader.mk true [0] 0 [[104, 10]]) = true) :=
  ⟨rfl, C3_eof_monotone (LineReader.mk true [0] 0 [[104, 10]]) rfl (.data [98])
    [.wouldBlock, .fatal 5]⟩

/-- C4: `lines_get` returns all accumulated lines in arrival order,
leaves the pending set empty, touches no other field, and a second
`lines_get` with no intervening read returns the empty sequence. -/
theorem C4_lines_get_drains (lr : LineReader) :
    (lines_get lr).1 = lr.lines ∧
    (lines_get lr).2.lines = [] ∧
    (lines_get lr).2.at_eof = lr.at_eof ∧
    (lines_get lr).2.buf = lr.buf ∧
    (lines_get lr).2.used = lr.used ∧
    (lines_get (lines_get lr).2).1 = [] :=
  ⟨rfl, rfl, rfl, rfl, rfl, rfl⟩

/-- C5: on a would-block or interrupted read condition, `read_once`
returns `Ok(true)` and mutates nothing the data model considers state:
`used`, `pending_lines`, `at_eof` and the live buffer bytes are all
unchanged (the buffer may gain reserved zero-filled capacity from the
resize that precedes the read attempt — bytes beyond `used`, which the
data model classifies as reserved unused capacity, not live data). -/
theorem C5_wouldblock_no_mutation (lr : LineReader) (ev : ReadEvent)
    (h : eof lr = false) (hw : lr.used ≤ lr.buf.length)
    (hev : ev = .wouldBlock ∨ ev = .interrupted) :
    (read_once lr ev).1 = .ok true ∧
    (read_once lr ev).2.used = lr.used ∧
    (read_once lr ev).2.lines = lr.lines ∧
    (read_once lr ev).2.at_eof = false ∧
    live (read_once lr ev).2 = live lr ∧
    (∃ k, (read_once lr ev).2.buf = lr.buf ++ List.replicate k 0) := by
  have key : read_once lr ev = (.ok true, { lr with buf := grow_buf lr.buf lr.used }) := by
    rcases hev with rfl | rfl
    · exact read_once_wouldBlock h
    · exact read_once_interrupted h
  rw [key]
  refine ⟨rfl, rfl, rfl, h, ?_, ?_⟩
  · show (grow_buf lr.buf lr.used).take lr.used = live lr
    exact grow_buf_take hw _ (le_refl _)
  · exact grow_buf_eq_append lr.buf lr.used

theorem C5_wouldblock_no_mutation_witness :
    eof (LineReader.mk false [107, 10] 1 [[104]]) = false ∧
    (LineReader.mk false [107, 10] 1 [[104]]).used ≤
      (LineReader.mk false [107, 10] 1 [[104]]).buf.length ∧
    ((read_once (LineReader.mk false [107, 10] 1 [[104]]) .wouldBlock).1 = .ok true ∧
      (read_once (LineReader.mk false [107, 10] 1 [[104]]) .wouldBlock).2.used =
        (LineReader.mk false [107, 10] 1 [[104]]).used ∧
      (read_once (LineReader.mk false [107, 10] 1 [[104]]) .wouldBlock).2.lines =
        (LineReader.mk false [107, 10] 1 [[104]]).lines ∧
      (read_once (LineReader.mk false [107, 10] 1 [[104]]) .wouldBlock).2.at_eof = false ∧
      live (read_once (LineReader.mk false [107, 10] 1 [[104]]) .wouldBlock).2 =
        live (LineReader.mk false [107, 10] 1 [[104]]) ∧
      (∃ k, (read_once (LineReader.mk false [107, 10] 1 [[104]]) .wouldBlock).2.buf =
        (LineReader.mk false [107, 10] 1 [[104]]).buf ++ List.replicate k 0)) :=
  ⟨rfl, by decide, C5_wouldblock_no_mutation (LineReader.mk false [107, 10] 1 [[104]])
    .wouldBlock rfl (by decide) (Or.inl rfl)⟩

/-- C6: a transport error other than would-block/interrupted is returned
unchanged and the splitter's state from before the failing read is
preserved: `used`, the live buffer bytes, `at_eof` and the accumulated
pending lines are as they were (again modulo reserved zero capacity
appended by the pre-read resize). -/
theorem C6_transport_error_preserves (lr : LineReader) (code : Nat)
    (h : eof lr = false) (hw : lr.used ≤ lr.buf.length) :
    (read_once lr (.fatal code)).1 = .error (.fatal code) ∧
    (read_once lr (.fatal code)).2.used = lr.used ∧
    live (read_once lr (.fatal code)).2 = live lr ∧
    (read_once lr (.fatal code)).2.at_eof = false ∧
    (read_once lr (.fatal code)).2.lines = lr.lines ∧
    (∃ k, (read_once lr (.fatal code)).2.buf = lr.buf ++ List.replicate k 0) := by
  rw [read_once_fatal h code]
  refine ⟨rfl, rfl, ?_, h, rfl, ?_⟩
  · show (grow_buf lr.buf lr.used).take lr.used = live lr
    exact grow_buf_take hw _ (le_refl _)
  · exact grow_buf_eq_append lr.buf lr.used

theorem C6_transport_error_preserves_witness :
    eof (LineReader.mk false [97, 98] 2 [[104, 10]]) = false ∧
    (LineReader.mk false [97, 98] 2 [[104, 10]]).used ≤
      (LineReader.mk false [97, 98] 2 [[104, 10]]).buf.length ∧
    ((read_once (LineReader.mk false [97, 98] 2 [[104, 10]]) (.fatal 13)).1 =
        .error (.fatal 13) ∧
      (read_once (LineReader.mk false [97, 98] 2 [[104, 10]]) (.fatal 13)).2.used =
        (LineReader.mk false [97, 98] 2 [[104, 10]]).used ∧
      live (read_once (LineReader.mk false [97, 98] 2 [[104, 10]]) (.fatal 13)).2 =
        live (LineReader.mk false [97, 98] 2 [[104, 10]]) ∧
      (read_once (LineReader.mk false [97, 98] 2 [[104, 10]]) (.fatal 13)).2.at_eof = false ∧
      (read_once (LineReader.mk false [97, 98] 2 [[104, 10]]) (.fatal 13)).2.lines =
        (LineReader.mk false [97, 98] 2 [[104, 10]]).lines ∧
      (∃ k, (read_once (LineReader.mk false [97, 98] 2 [[104, 10]]) (.fatal 13)).2.buf =
        (LineReader.mk false [97, 98] 2 [[104, 10]]).buf ++ List.replicate k 0)) :=
  ⟨rfl, by decide,
    C6_transport_error_preserves (LineReader.mk false [97, 98] 2 [[104, 10]]) 13 rfl (by decide)⟩

/-- C2: on a zero-byte read with no error (end of stream), when the
splitter is not yet at EOF: with `used > 0` and valid live content, the
entire live buffer is pushed as one final line byte-for-byte (no
separator appended or stripped) and `used` resets to 0; with `used = 0`
no line is pushed; in both cases `at_eof` becomes true while the call
still returns `Ok(true)`, so the caller gets one more not-done result
before `eof()` reads true. -/
theorem C2_eof_flush (lr : LineReader) (h : eof lr = false)
    (hw : lr.used ≤ lr.buf.length)
    (hv : 0 < lr.used → utf8Valid (live lr) = true) :
    (read_once lr (.data [])).1 = .ok true ∧
    eof (read_once lr (.data [])).2 = true ∧
    (read_once lr (.data [])).2.used = 0 ∧
    (read_once lr (.data [])).2.lines =
      lr.lines ++ (if 0 < lr.used then [live lr] else []) ∧
    (0 < lr.used → (read_once lr (.data [])).2.buf = []) := by
  by_cases hu : 0 < lr.used
  · rw [read_once_eof_flush_ok h hu hw (hv hu)]
    refine ⟨rfl, rfl, rfl, ?_, fun _ => rfl⟩
    rw [if_pos hu]
  · have hu0 : lr.used = 0 := by omega
    rw [read_once_eof_empty h hu0]
    refine ⟨rfl, rfl, hu0, ?_, fun hc => absurd hc hu⟩
    rw [if_neg hu]
    simp

theorem C2_eof_flush_witness :
    eof (LineReader.mk false [116, 101, 115, 116] 4 [[104, 10]]) = false ∧
    (LineReader.mk false [116, 101, 115, 116] 4 [[104, 10]]).used ≤
      (LineReader.mk false [116, 101, 115, 116] 4 [[104, 10]]).buf.length ∧
    ((read_once (LineReader.mk false [116, 101, 115, 116] 4 [[104, 10]]) (.data [])).1 =
        .ok true ∧
      eof (read_once (LineReader.mk false [116, 101, 115, 116] 4 [[104, 10]])
        (.data [])).2 = true ∧
      (read_once (LineReader.mk false [116, 101, 115, 116] 4 [[104, 10]])
        (.data [])).2.used = 0 ∧
      (read_once (LineReader.mk false [116, 101, 115, 116] 4 [[104, 10]])
        (.data [])).2.lines =
        (LineReader.mk false [116, 101, 115, 116] 4 [[104, 10]]).lines ++
          (if 0 < (LineReader.mk false [116, 101, 115, 116] 4 [[104, 10]]).used
           then [live (LineReader.mk false [116, 101, 115, 116] 4 [[104, 10]])] else []) ∧
      (0 < (LineReader.mk false [116, 101, 115, 116] 4 [[104, 10]]).used →
        (read_once (LineReader.mk false [116, 101, 115, 116] 4 [[104, 10]])
          (.data [])).2.buf = [])) :=
  ⟨rfl, by decide,
    C2_eof_flush (LineReader.mk false [116, 101, 115, 116] 4 [[104, 10]]) rfl (by decide)
      (fun _ => by rw [utf8Valid_eq_F 4 _ (by decide)]; decide)⟩

/-- C1: for every well-formed UTF-8 byte stream delivered through any
chunking with any interleaving of would-block/interrupted conditions and
a final end-of-stream read, the full drive runs without error, ends at
EOF, and draining yields exactly the stream's lines: the K
newline-terminated segments (plus the trailing unterminated fragment when
one exists), in original order, each reproducing its source bytes
exactly, so that their concatenation is the whole input stream. -/
theorem C1_stream_drain (S : List Nat) (evs : List ReadEvent)
    (hS : utf8Valid S = true)
    (hmid : ∀ ev ∈ evs, midEvent ev)
    (hdata : scriptData evs = S) :
    (runEvents from_nonblocking (evs ++ [.data []])).1 = none ∧
    eof (runEvents from_nonblocking (evs ++ [.data []])).2 = true ∧
    (lines_get (runEvents from_nonblocking (evs ++ [.data []])).2).1 = splitLines S ∧
    (splitLines S).flatten = S ∧
    (splitLines S).length = S.count 10 + (if restAfter S = [] then 0 else 1) := by
  obtain ⟨hvalsegs, hvalrest⟩ := utf8Valid_splitTerm_restAfter S hS
  have hrun := runEvents_inv evs RunInv_initial hmid
    (by rw [List.nil_append, hdata]; exact hvalsegs)
  rw [List.nil_append, hdata] at hrun
  obtain ⟨hres1, hinv1⟩ := hrun
  have happ := runEvents_append evs [.data []] from_nonblocking hres1
  obtain ⟨heof1, hwf1, hlive1, hlines1⟩ := hinv1
  by_cases hrest : restAfter S = []
  · have hu0 : (runEvents from_nonblocking evs).2.used = 0 := by
      have hl := congrArg List.length hlive1
      rw [hrest] at hl
      simp only [live, List.length_take, List.length_nil] at hl
      omega
    have hro := read_once_eof_empty heof1 hu0
    have hfin : runEvents from_nonblocking (evs ++ [.data []]) =
        (none, LineReader.mk true
          (grow_buf (runEvents from_nonblocking evs).2.buf
            (runEvents from_nonblocking evs).2.used)
          (runEvents from_nonblocking evs).2.used
          (runEvents from_nonblocking evs).2.lines) := by
      rw [happ, runEvents_cons_ok true hro []]
      rfl
    rw [hfin]
    refine ⟨rfl, rfl, ?_, splitLines_flatten S, splitLines_length S⟩
    show (runEvents from_nonblocking evs).2.lines = splitLines S
    rw [hlines1, splitLines, hrest, if_pos rfl, List.append_nil]
  · have hupos : 0 < (runEvents from_nonblocking evs).2.used := by
      have hl := congrArg List.length hlive1
      simp only [live, List.length_take] at hl
      have : 0 < (restAfter S).length := List.length_pos.mpr hrest
      omega
    have hvlive : utf8Valid (live (runEvents from_nonblocking evs).2) = true := by
      rw [hlive1]
      exact hvalrest
    have hro := read_once_eof_flush_ok heof1 hupos hwf1 hvlive
    have hfin : runEvents from_nonblocking (evs ++ [.data []]) =
        (none, LineReader.mk true [] 0
          ((runEvents from_nonblocking evs).2.lines ++
            [live (runEvents from_nonblocking evs).2])) := by
      rw [happ, runEvents_cons_ok true hro []]
      rfl
    rw [hfin]
    refine ⟨rfl, rfl, ?_, splitLines_flatten S, splitLines_length S⟩
    show (runEvents from_nonblocking evs).2.lines ++
      [live (runEvents from_nonblocking evs).2] = splitLines S
    rw [hlines1, hlive1, splitLines, if_neg hrest]

theorem C1_stream_drain_witness :
    utf8Valid [97, 98, 10, 99, 100] = true ∧
    (∀ ev ∈ [ReadEvent.data [97, 98, 10], ReadEvent.wouldBlock, ReadEvent.data [99, 100]],
      midEvent ev) ∧
    scriptData [ReadEvent.data [97, 98, 10], ReadEvent.wouldBlock, ReadEvent.data [99, 100]] =
      [97, 98, 10, 99, 100] ∧
    ((runEvents from_nonblocking ([ReadEvent.data [97, 98, 10], ReadEvent.wouldBlock,
        ReadEvent.data [99, 100]] ++ [.data []])).1 = none ∧
      eof (runEvents from_nonblocking ([ReadEvent.data [97, 98, 10], ReadEvent.wouldBlock,
        ReadEvent.data [99, 100]] ++ [.data []])).2 = true ∧
      (lines_get (runEvents from_nonblocking ([ReadEvent.data [97, 98, 10],
        ReadEvent.wouldBlock, ReadEvent.data [99, 100]] ++ [.data []])).2).1 =
        splitLines [97, 98, 10, 99, 100] ∧
      (splitLines [97, 98, 10, 99, 100]).flatten = [97, 98, 10, 99, 100] ∧
      (splitLines [97, 98, 10, 99, 100]).length = List.count 10 [97, 98, 10, 99, 100] +
        (if restAfter [97, 98, 10, 99, 100] = [] then 0 else 1)) :=
  ⟨by rw [utf8Valid_eq_F 5 _ (by decide)]; decide,
   by decide,
   rfl,
   C1_stream_drain [97, 98, 10, 99, 100]
     [ReadEvent.data [97, 98, 10], ReadEvent.wouldBlock, ReadEvent.data [99, 100]]
     (by rw [utf8Valid_eq_F 5 _ (by decide)]; decide) (by decide) rfl⟩

/-- C7: whenever a candidate line — a scanned separator-terminated
segment (after any earlier valid candidates `pre`), or the trailing
fragment flushed at end of stream — is not valid UTF-8, `read_once`
returns the invalid-data error (an error kind distinct from the
transport errors), no line is pushed for that candidate, and the
offending bytes are already removed from the buffer when the error
returns: the remaining live region holds only the bytes after the bad
candidate. -/
theorem C7_invalid_candidate (lr : LineReader) (c bad : List Nat)
    (pre post : List (List Nat)) (code : Nat)
    (heof : eof lr = false) (hw : lr.used ≤ lr.buf.length)
    (hnl : memchr 10 (live lr) = none)
    (hcase : (c = [] ∧ 0 < lr.used ∧ utf8Valid (live lr) = false ∧
        pre = [] ∧ post = [] ∧ bad = live lr) ∨
      (c ≠ [] ∧ c.length ≤ BUFFER_SIZE ∧
        splitTerm (live lr ++ c) = pre ++ bad :: post ∧
        (∀ l ∈ pre, utf8Valid l = true) ∧ utf8Valid bad = false)) :
    (read_once lr (.data c)).1 = .error .invalidData ∧
    (read_once lr (.data c)).2.lines = lr.lines ++ pre ∧
    live (read_once lr (.data c)).2 =
      post.flatten ++ (if c = [] then [] else restAfter (live lr ++ c)) ∧
    IOErr.invalidData ≠ IOErr.fatal code := by
  rcases hcase with ⟨rfl, hu, hv, rfl, rfl, rfl⟩ | ⟨hc, hclen, hseg, hpreval, hbad⟩
  · rw [read_once_eof_flush_err heof hu hw hv]
    refine ⟨rfl, (List.append_nil _).symm, ?_, fun h => IOErr.noConfusion h⟩
    show (([] : List Nat).take lr.used) = _
    simp
  · obtain ⟨h1, h2, _, _, h5⟩ := read_once_data_err heof hw hnl hc hclen hseg hpreval hbad
    refine ⟨h1, h2, ?_, fun h => IOErr.noConfusion h⟩
    rw [h5, if_neg hc]

theorem C7_invalid_candidate_witness :
    eof from_nonblocking = false ∧
    from_nonblocking.used ≤ from_nonblocking.buf.length ∧
    memchr 10 (live from_nonblocking) = none ∧
    (([255, 10, 97] = ([] : List Nat) ∧ 0 < from_nonblocking.used ∧
        utf8Valid (live from_nonblocking) = false ∧
        ([] : List (List Nat)) = [] ∧ ([] : List (List Nat)) = [] ∧
        [255, 10] = live from_nonblocking) ∨
      ([255, 10, 97] ≠ ([] : List Nat) ∧ ([255, 10, 97] : List Nat).length ≤ BUFFER_SIZE ∧
        splitTerm (live from_nonblocking ++ [255, 10, 97]) =
          [] ++ [255, 10] :: ([] : List (List Nat)) ∧
        (∀ l ∈ ([] : List (List Nat)), utf8Valid l = true) ∧
        utf8Valid [255, 10] = false)) ∧
    ((read_once from_nonblocking (.data [255, 10, 97])).1 = .error .invalidData ∧
      (read_once from_nonblocking (.data [255, 10, 97])).2.lines =
        from_nonblocking.lines ++ ([] : List (List Nat)) ∧
      live (read_once from_nonblocking (.data [255, 10, 97])).2 =
        ([] : List (List Nat)).flatten ++
          (if ([255, 10, 97] : List Nat) = [] then []
           else restAfter (live from_nonblocking ++ [255, 10, 97])) ∧
      IOErr.invalidData ≠ IOErr.fatal 7) := by
  have hseg : splitTerm (live from_nonblocking ++ [255, 10, 97]) =
      [] ++ [255, 10] :: ([] : List (List Nat)) := by
    rw [show live from_nonblocking ++ [255, 10, 97] = [255, 10, 97] from rfl,
      splitTerm_eq_F 3 _ (by decide)]
    decide
  have hbad : utf8Valid [255, 10] = false := by
    rw [utf8Valid_eq_F 2 _ (by decide)]
    decide
  exact ⟨rfl, by decide, rfl,
    Or.inr ⟨by decide, by decide, hseg, by simp, hbad⟩,
    C7_invalid_candidate from_nonblocking [255, 10, 97] [255, 10] [] [] 7 rfl (by decide) rfl
      (Or.inr ⟨by decide, by decide, hseg, by simp, hbad⟩)⟩

/-- C8 (amended): `used ≤ buffer.length` (hence `used ≤ capacity`) holds
at construction and is preserved by `lines_get`, `eof` and every exit of
`read_once` except one: the invalid-text error exit of the end-of-stream
flush (`Ok(0)` read with `used > 0` and invalid live bytes), where the
buffer is taken (emptied) before the `?` return and `used` keeps its old
positive value. -/
theorem C8_used_within_capacity (lr : LineReader) (hw : lr.used ≤ lr.buf.length)
    (ev : ReadEvent) :
    (¬(ev = .data [] ∧ (read_once lr ev).1 = .error .invalidData) →
      (read_once lr ev).2.used ≤ (read_once lr ev).2.buf.length) ∧
    (lines_get lr).2.used ≤ (lines_get lr).2.buf.length ∧
    from_nonblocking.used ≤ from_nonblocking.buf.length := by
  refine ⟨?_, hw, le_refl 0⟩
  intro hexc
  by_cases ha : lr.at_eof = true
  · rw [read_once_at_eof ha ev]
    exact hw
  · have ha2 : lr.at_eof = false := by
      revert ha
      cases lr.at_eof <;> simp
    match ev with
    | .wouldBlock =>
      rw [read_once_wouldBlock ha2]
      exact le_trans (Nat.le_add_right _ _) (grow_buf_len_ge lr.buf lr.used)
    | .interrupted =>
      rw [read_once_interrupted ha2]
      exact le_trans (Nat.le_add_right _ _) (grow_buf_len_ge lr.buf lr.used)
    | .fatal code =>
      rw [read_once_fatal ha2 code]
      exact le_trans (Nat.le_add_right _ _) (grow_buf_len_ge lr.buf lr.used)
    | .data c =>
      by_cases hc0 : c = []
      · subst hc0
        by_cases hu : 0 < lr.used
        · by_cases hvv : utf8Valid (live lr) = true
          · rw [read_once_eof_flush_ok ha2 hu hw hvv]
            exact Nat.le_refl 0
          · have hvv2 : utf8Valid (live lr) = false := by
              revert hvv
              cases utf8Valid (live lr) <;> simp
            exact absurd ⟨rfl, by rw [read_once_eof_flush_err ha2 hu hw hvv2]⟩ hexc
        · have hu0 : lr.used = 0 := by omega
          rw [read_once_eof_empty ha2 hu0]
          exact le_trans (Nat.le_add_right _ _) (grow_buf_len_ge lr.buf lr.used)
      · have hclen0 : ¬(c.length = 0) := by
          simpa using hc0
        have hwfW : lr.used + c.length ≤
            ((grow_buf lr.buf lr.used).take lr.used ++ c ++
              (grow_buf lr.buf lr.used).drop (lr.used + c.length)).length := by
          have hAlen : ((grow_buf lr.buf lr.used).take lr.used).length = lr.used := by
            simp only [List.length_take]
            have := grow_buf_len_ge lr.buf lr.used
            omega
          simp only [List.length_append, hAlen]
          omega
        have hwfT := eval_buf_wf _ (lr.used + c.length) lr.used lr.lines hwfW
        match hT : eval_buf ((grow_buf lr.buf lr.used).take lr.used ++ c ++
            (grow_buf lr.buf lr.used).drop (lr.used + c.length))
            (lr.used + c.length) lr.used lr.lines with
        | (r, b, u, ls) =>
          rw [hT] at hwfT
          cases r with
          | none =>
            have hred : read_once lr (.data c) =
                (.ok true, { lr with buf := b, used := u, lines := ls }) := by
              simp [-List.append_assoc, read_once, ha2, hclen0, hT]
            rw [hred]
            exact hwfT
          | some e =>
            have hred : read_once lr (.data c) =
                (.error e, { lr with buf := b, used := u, lines := ls }) := by
              simp [-List.append_assoc, read_once, ha2, hclen0, hT]
            rw [hred]
            exact hwfT

theorem C8_used_within_capacity_witness :
    (LineReader.mk false [10, 97] 1 []).used ≤
      (LineReader.mk false [10, 97] 1 []).buf.length ∧
    ((¬(ReadEvent.wouldBlock = .data [] ∧
        (read_once (LineReader.mk false [10, 97] 1 []) .wouldBlock).1 =
          .error .invalidData) →
      (read_once (LineReader.mk false [10, 97] 1 []) .wouldBlock).2.used ≤
        (read_once (LineReader.mk false [10, 97] 1 []) .wouldBlock).2.buf.length) ∧
      (lines_get (LineReader.mk false [10, 97] 1 [])).2.used ≤
        (lines_get (LineReader.mk false [10, 97] 1 [])).2.buf.length ∧
      from_nonblocking.used ≤ from_nonblocking.buf.length) :=
  ⟨by decide, C8_used_within_capacity (LineReader.mk false [10, 97] 1 []) (by decide)
    .wouldBlock⟩

/-- C8 (counterexample to the claim as stated): deliver the invalid
UTF-8 byte 0xFF, then end of stream.  The flush takes the buffer (a
fresh `Vec::new()`, capacity 0) but the validation `?` returns before
`used` is reset, leaving `used = 1 > 0 = buffer.capacity()`. -/
theorem C8_counterexample :
    (read_once (read_once from_nonblocking (.data [255])).2 (.data [])).2.used = 1 ∧
    (read_once (read_once from_nonblocking (.data [255])).2 (.data [])).2.buf = [] ∧
    (read_once (read_once from_nonblocking (.data [255])).2 (.data [])).1 =
      .error .invalidData := by
  have h1 := @read_once_data_inv from_nonblocking [] [255]
    RunInv_initial (by decide) (by decide)
    (by
      intro l hl
      rw [List.nil_append, splitTerm_of_none (by decide)] at hl
      exact absurd hl (List.not_mem_nil l))
  obtain ⟨hres1, hinv1⟩ := h1
  rw [List.nil_append] at hinv1
  obtain ⟨heof1, hwf1, hlive1, hlines1⟩ := hinv1
  rw [restAfter_of_none (by decide)] at hlive1
  have hu1 : (read_once from_nonblocking (.data [255])).2.used = 1 := by
    have hl := congrArg List.length hlive1
    simp only [live, List.length_take, List.length_cons, List.length_nil] at hl
    omega
  have hv1 : utf8Valid (live (read_once from_nonblocking (.data [255])).2) = false := by
    rw [hlive1, utf8Valid_eq_F 1 _ (by decide)]
    decide
  have h2 := read_once_eof_flush_err heof1 (by omega) hwf1 hv1
  rw [h2]
  exact ⟨hu1, rfl, rfl⟩

/-- C10 (amended): the no-separator invariant on the live region holds
at construction and is an inductive invariant of error-free operation:
from any state with `used` within the buffer and a newline-free live
region, a `read_once` that returns `Ok` leaves the live region
newline-free (and `used` within the buffer).  (As stated over all
reachable states the claim fails: an invalid-data error exit can leave a
newline in the live region, and a later `read_once` still returns `Ok` —
see the counterexample.) -/
theorem C10_live_no_separator (lr : LineReader) (ev : ReadEvent) (b : Bool)
    (hw : lr.used ≤ lr.buf.length) (hnl : memchr 10 (live lr) = none)
    (hok : (read_once lr ev).1 = .ok b) :
    memchr 10 (live (read_once lr ev).2) = none ∧
    (read_once lr ev).2.used ≤ (read_once lr ev).2.buf.length ∧
    memchr 10 (live from_nonblocking) = none := by
  refine ⟨?_, ?_, rfl⟩ <;>
  · by_cases ha : lr.at_eof = true
    · rw [read_once_at_eof ha ev]
      first
      | exact hnl
      | exact hw
    · have ha2 : lr.at_eof = false := by
        revert ha
        cases lr.at_eof <;> simp
      match ev with
      | .wouldBlock =>
        rw [read_once_wouldBlock ha2]
        first
        | (show memchr 10 ((grow_buf lr.buf lr.used).take lr.used) = none
           rw [grow_buf_take hw _ (le_refl _)]
           exact hnl)
        | exact le_trans (Nat.le_add_right _ _) (grow_buf_len_ge lr.buf lr.used)
      | .interrupted =>
        rw [read_once_interrupted ha2]
        first
        | (show memchr 10 ((grow_buf lr.buf lr.used).take lr.used) = none
           rw [grow_buf_take hw _ (le_refl _)]
           exact hnl)
        | exact le_trans (Nat.le_add_right _ _) (grow_buf_len_ge lr.buf lr.used)
      | .fatal code =>
        rw [read_once_fatal ha2 code] at hok
        cases hok
      | .data c =>
        by_cases hc0 : c = []
        · subst hc0
          by_cases hu : 0 < lr.used
          · by_cases hvv : utf8Valid (live lr) = true
            · rw [read_once_eof_flush_ok ha2 hu hw hvv]
              first
              | exact rfl
              | exact Nat.le_refl 0
            · have hvv2 : utf8Valid (live lr) = false := by
                revert hvv
                cases utf8Valid (live lr) <;> simp
              rw [read_once_eof_flush_err ha2 hu hw hvv2] at hok
              cases hok
          · have hu0 : lr.used = 0 := by omega
            rw [read_once_eof_empty ha2 hu0]
            first
            | simp [live, hu0, memchr]
            | exact le_trans (Nat.le_add_right _ _) (grow_buf_len_ge lr.buf lr.used)
        · have hclen0 : ¬(c.length = 0) := by
            simpa using hc0
          have hAlen : ((grow_buf lr.buf lr.used).take lr.used).length = lr.used := by
            simp only [List.length_take]
            have := grow_buf_len_ge lr.buf lr.used
            omega
          have hwfW : lr.used + c.length ≤
              ((grow_buf lr.buf lr.used).take lr.used ++ c ++
                (grow_buf lr.buf lr.used).drop (lr.used + c.length)).length := by
            simp only [List.length_append, hAlen]
            omega
          have hWpre : memchr 10 (((grow_buf lr.buf lr.used).take lr.used ++ c ++
              (grow_buf lr.buf lr.used).drop (lr.used + c.length)).take lr.used) = none := by
            have h0 : ((grow_buf lr.buf lr.used).take lr.used ++ c ++
                (grow_buf lr.buf lr.used).drop (lr.used + c.length)).take lr.used =
                ((grow_buf lr.buf lr.used).take lr.used) := by
              rw [List.take_append_of_le_length (by rw [List.length_append, hAlen]; omega),
                List.take_append_of_le_length (by rw [hAlen]),
                List.take_take, Nat.min_self]
            rw [h0, grow_buf_take hw _ (le_refl _)]
            exact hnl
          have hwfT := eval_buf_wf _ (lr.used + c.length) lr.used lr.lines hwfW
          have hnlT := fun hres => eval_buf_ok_noNl _ (lr.used + c.length) lr.used lr.lines
            hwfW (by omega) hWpre hres
          match hT : eval_buf ((grow_buf lr.buf lr.used).take lr.used ++ c ++
              (grow_buf lr.buf lr.used).drop (lr.used + c.length))
              (lr.used + c.length) lr.used lr.lines with
          | (r, b2, u, ls) =>
            rw [hT] at hwfT
            cases r with
            | none =>
              have hred : read_once lr (.data c) =
                  (.ok true, { lr with buf := b2, used := u, lines := ls }) := by
                simp [-List.append_assoc, read_once, ha2, hclen0, hT]
              have hnl2 := hnlT (by rw [hT])
              rw [hT] at hnl2
              rw [hred]
              first
              | exact hnl2
              | exact hwfT
            | some e =>
              have hred : read_once lr (.data c) =
                  (.error e, { lr with buf := b2, used := u, lines := ls }) := by
                simp [-List.append_assoc, read_once, ha2, hclen0, hT]
              rw [hred] at hok
              cases hok

theorem C10_live_no_separator_witness :
    (LineReader.mk false [97, 98] 2 []).used ≤
      (LineReader.mk false [97, 98] 2 []).buf.length ∧
    memchr 10 (live (LineReader.mk false [97, 98] 2 [])) = none ∧
    (read_once (LineReader.mk false [97, 98] 2 []) .wouldBlock).1 = .ok true ∧
    (memchr 10 (live (read_once (LineReader.mk false [97, 98] 2 []) .wouldBlock).2) = none ∧
      (read_once (LineReader.mk false [97, 98] 2 []) .wouldBlock).2.used ≤
        (read_once (LineReader.mk false [97, 98] 2 []) .wouldBlock).2.buf.length ∧
      memchr 10 (live from_nonblocking) = none) :=
  ⟨by decide, by decide, by decide,
    C10_live_no_separator (LineReader.mk false [97, 98] 2 []) .wouldBlock true (by decide)
      (by decide) (by decide)⟩

set_option maxRecDepth 4000 in
/-- C10 (counterexample to the claim as stated): deliver
`[0xFF, 0x0A, 0x61, 0x0A, 0xFF]`; the first candidate `[0xFF, 0x0A]` is
invalid, so `read_once` errors with `[0x61, 0x0A, 0xFF]` left live — a
newline inside the live region.  The next `read_once` (a would-block
read) returns `Ok(true)` with that newline still in the live region. -/
theorem C10_counterexample :
    (read_once (read_once from_nonblocking
      (.data [255, 10, 97, 10, 255])).2 .wouldBlock).1 = .ok true ∧
    memchr 10 (live (read_once (read_once from_nonblocking
      (.data [255, 10, 97, 10, 255])).2 .wouldBlock).2) = some 1 := by
  have hra : restAfter [255, 10, 97, 10, 255] = [255] := by
    rw [@restAfter_of_some [255, 10, 97, 10, 255] 1 (by decide),
      show List.drop 2 [255, 10, 97, 10, 255] = [97, 10, 255] from rfl,
      @restAfter_of_some [97, 10, 255] 1 (by decide),
      show List.drop 2 [97, 10, 255] = [255] from rfl]
    exact restAfter_of_none (by decide)
  have hseg : splitTerm (live from_nonblocking ++ [255, 10, 97, 10, 255]) =
      [] ++ [255, 10] :: [[97, 10]] := by
    rw [show live from_nonblocking ++ [255, 10, 97, 10, 255] =
        [255, 10, 97, 10, 255] from rfl,
      splitTerm_eq_F 5 _ (by decide)]
    decide
  have hstep := @read_once_data_err from_nonblocking [255, 10, 97, 10, 255] [255, 10]
    [] [[97, 10]] rfl (le_refl 0) rfl (by decide) (by decide)
    hseg (by simp) (by rw [utf8Valid_eq_F 2 _ (by decide)]; decide)
  obtain ⟨hr1, hlines1, heof1, hwf1, hlive1⟩ := hstep
  rw [show live from_nonblocking ++ [255, 10, 97, 10, 255] =
      [255, 10, 97, 10, 255] from rfl, hra] at hlive1
  have hlive2 : live (read_once from_nonblocking
      (.data [255, 10, 97, 10, 255])).2 = [97, 10, 255] := by
    rw [hlive1]
    rfl
  have hlive3 : (read_once from_nonblocking
      (.data [255, 10, 97, 10, 255])).2.buf.take (read_once from_nonblocking
      (.data [255, 10, 97, 10, 255])).2.used = [97, 10, 255] := by
    simpa [live] using hlive2
  constructor
  · rw [read_once_wouldBlock heof1]
  · rw [read_once_wouldBlock heof1]
    simp only [live]
    rw [grow_buf_take hwf1 _ (le_refl _), hlive3]
    decide

/-! ## `read_available` lemmas and C9 -/

/-- From a not-at-EOF state, `read_once` never returns `Ok(false)`: it
returns `Ok(true)` or an error. -/
theorem read_once_fst {lr : LineReader} (h : lr.at_eof = false) (ev : ReadEvent) :
    (read_once lr ev).1 = .ok true ∨ ∃ e, (read_once lr ev).1 = .error e := by
  match ev with
  | .wouldBlock => exact Or.inl (by rw [read_once_wouldBlock h])
  | .interrupted => exact Or.inl (by rw [read_once_interrupted h])
  | .fatal code => exact Or.inr ⟨.fatal code, by rw [read_once_fatal h code]⟩
  | .data c =>
    by_cases hc0 : c = []
    · subst hc0
      by_cases hu : 0 < lr.used
      · cases hv : u8array_to_string ((grow_buf lr.buf lr.used).take lr.used) with
        | ok s => exact Or.inl (by simp [read_once, h, hu, hv])
        | error e => exact Or.inr ⟨e, by simp [read_once, h, hu, hv]⟩
      · exact Or.inl (by rw [read_once_eof_empty h (by omega)])
    · have hclen0 : ¬(c.length = 0) := by
        simpa using hc0
      match hT : eval_buf ((grow_buf lr.buf lr.used).take lr.used ++ c ++
          (grow_buf lr.buf lr.used).drop (lr.used + c.length))
          (lr.used + c.length) lr.used lr.lines with
      | (r, b2, u, ls) =>
        cases r with
        | none => exact Or.inl (by simp [-List.append_assoc, read_once, h, hclen0, hT])
        | some e => exact Or.inr ⟨e, by simp [-List.append_assoc, read_once, h, hclen0, hT]⟩

theorem read_available_at_eof {lr : LineReader} (h : lr.at_eof = true)
    (evs : List ReadEvent) : read_available lr evs = some (.ok (), lr) := by
  cases evs <;> simp [read_available, h]

theorem read_available_nil {lr : LineReader} (h : lr.at_eof = false) :
    read_available lr [] = none := by
  simp [read_available, h]

theorem read_available_cons_err {lr st2 : LineReader} {ev : ReadEvent} {e : IOErr}
    (h : lr.at_eof = false) (hq : read_once lr ev = (.error e, st2))
    (rest : List ReadEvent) :
    read_available lr (ev :: rest) = some (.error e, st2) := by
  simp [read_available, h, hq]

theorem read_available_cons_stop {lr st2 : LineReader} {ev : ReadEvent}
    (h : lr.at_eof = false) (hq : read_once lr ev = (.ok true, st2))
    (hl : has_lines st2 = true) (rest : List ReadEvent) :
    read_available lr (ev :: rest) = some (.ok (), st2) := by
  simp [read_available, h, hq, hl]

theorem read_available_cons_go {lr st2 : LineReader} {ev : ReadEvent}
    (h : lr.at_eof = false) (hq : read_once lr ev = (.ok true, st2))
    (hl : has_lines st2 = false) (rest : List ReadEvent) :
    read_available lr (ev :: rest) = read_available st2 rest := by
  simp [read_available, h, hq, hl]

theorem read_available_nonblock_at_eof {lr : LineReader} (h : lr.at_eof = true)
    (evs : List ReadEvent) : read_available_nonblock lr evs = some (.ok (), lr) := by
  cases evs <;> simp [read_available_nonblock, h]

theorem read_available_nonblock_cons_err {lr st2 : LineReader} {ev : ReadEvent} {e : IOErr}
    (h : lr.at_eof = false) (hq : read_once lr ev = (.error e, st2))
    (rest : List ReadEvent) :
    read_available_nonblock lr (ev :: rest) = some (.error e, st2) := by
  simp [read_available_nonblock, h, hq]

theorem read_available_nonblock_cons_go {lr st2 : LineReader} {ev : ReadEvent}
    (h : lr.at_eof = false) (hq : read_once lr ev = (.ok true, st2))
    (rest : List ReadEvent) :
    read_available_nonblock lr (ev :: rest) = read_available_nonblock st2 rest := by
  simp [read_available_nonblock, h, hq]

theorem read_available_spec : ∀ (evs : List ReadEvent) (lr : LineReader)
    (r : Except IOErr Unit) (st : LineReader),
    read_available lr evs = some (r, st) →
    (r = .ok () → eof st = true ∨ has_lines st = true) ∧
    (∀ e, r = .error e → ∃ lr0 ev, read_once lr0 ev = (.error e, st)) := by
  intro evs
  induction evs with
  | nil =>
    intro lr r st h
    by_cases ha : lr.at_eof = true
    · rw [read_available_at_eof ha []] at h
      simp only [Option.some.injEq, Prod.mk.injEq] at h
      obtain ⟨rfl, rfl⟩ := h
      exact ⟨fun _ => Or.inl ha, fun e he => by cases he⟩
    · have ha2 : lr.at_eof = false := by
        revert ha
        cases lr.at_eof <;> simp
      rw [read_available_nil ha2] at h
      cases h
  | cons ev rest ih =>
    intro lr r st h
    by_cases ha : lr.at_eof = true
    · rw [read_available_at_eof ha (ev :: rest)] at h
      simp only [Option.some.injEq, Prod.mk.injEq] at h
      obtain ⟨rfl, rfl⟩ := h
      exact ⟨fun _ => Or.inl ha, fun e he => by cases he⟩
    · have ha2 : lr.at_eof = false := by
        revert ha
        cases lr.at_eof <;> simp
      match hq : read_once lr ev with
      | (.error e, st2) =>
        rw [read_available_cons_err ha2 hq rest] at h
        simp only [Option.some.injEq, Prod.mk.injEq] at h
        obtain ⟨rfl, rfl⟩ := h
        exact ⟨(fun hok => by cases hok),
          fun e2 he => ⟨lr, ev, by rw [hq, Except.error.inj he]⟩⟩
      | (.ok false, st2) =>
        exfalso
        rcases read_once_fst ha2 ev with hx | ⟨e, hx⟩ <;>
        · rw [hq] at hx
          cases hx
      | (.ok true, st2) =>
        by_cases hl : has_lines st2 = true
        · rw [read_available_cons_stop ha2 hq hl rest] at h
          simp only [Option.some.injEq, Prod.mk.injEq] at h
          obtain ⟨rfl, rfl⟩ := h
          exact ⟨fun _ => Or.inr hl, fun e he => by cases he⟩
        · have hl2 : has_lines st2 = false := by
            revert hl
            cases has_lines st2 <;> simp
          rw [read_available_cons_go ha2 hq hl2 rest] at h
          exact ih st2 r st h

theorem read_available_nonblock_spec : ∀ (evs : List ReadEvent) (lr : LineReader)
    (r : Except IOErr Unit) (st : LineReader),
    read_available_nonblock lr evs = some (r, st) →
    (r = .ok () → eof st = true) ∧
    (∀ e, r = .error e → ∃ lr0 ev, read_once lr0 ev = (.error e, st)) := by
  intro evs
  induction evs with
  | nil =>
    intro lr r st h
    by_cases ha : lr.at_eof = true
    · rw [read_available_nonblock_at_eof ha []] at h
      simp only [Option.some.injEq, Prod.mk.injEq] at h
      obtain ⟨rfl, rfl⟩ := h
      exact ⟨fun _ => ha, fun e he => by cases he⟩
    · have ha2 : lr.at_eof = false := by
        revert ha
        cases lr.at_eof <;> simp
      simp [read_available_nonblock, ha2] at h
  | cons ev rest ih =>
    intro lr r st h
    by_cases ha : lr.at_eof = true
    · rw [read_available_nonblock_at_eof ha (ev :: rest)] at h
      simp only [Option.some.injEq, Prod.mk.injEq] at h
      obtain ⟨rfl, rfl⟩ := h
      exact ⟨fun _ => ha, fun e he => by cases he⟩
    · have ha2 : lr.at_eof = false := by
        revert ha
        cases lr.at_eof <;> simp
      match hq : read_once lr ev with
      | (.error e, st2) =>
        rw [read_available_nonblock_cons_err ha2 hq rest] at h
        simp only [Option.some.injEq, Prod.mk.injEq] at h
        obtain ⟨rfl, rfl⟩ := h
        exact ⟨(fun hok => by cases hok),
          fun e2 he => ⟨lr, ev, by rw [hq, Except.error.inj he]⟩⟩
      | (.ok false, st2) =>
        exfalso
        rcases read_once_fst ha2 ev with hx | ⟨e, hx⟩ <;>
        · rw [hq] at hx
          cases hx
      | (.ok true, st2) =>
        rw [read_available_nonblock_cons_go ha2 hq rest] at h
        exact ih st2 r st h

/-- C9: `read_available` repeatedly invokes `read_once`; the trait's
default implementation stops exactly at permanent EOF (`read_once`
returning false) or as soon as `has_lines()` is true, while the
`LineReaderNonBlock` variant stops only at permanent EOF; both propagate
the first error from a `read_once` call with the state exactly as that
failing `read_once` left it. -/
theorem C9_read_available (lrA lrB : LineReader) (evsA evsB : List ReadEvent)
    (rA rB : Except IOErr Unit) (stA stB : LineReader)
    (hA : read_available lrA evsA = some (rA, stA))
    (hB : read_available_nonblock lrB evsB = some (rB, stB)) :
    ((rA = .ok () → eof stA = true ∨ has_lines stA = true) ∧
      (∀ e, rA = .error e → ∃ lr0 ev, read_once lr0 ev = (.error e, stA))) ∧
    ((rB = .ok () → eof stB = true) ∧
      (∀ e, rB = .error e → ∃ lr0 ev, read_once lr0 ev = (.error e, stB))) :=
  ⟨read_available_spec evsA lrA rA stA hA,
   read_available_nonblock_spec evsB lrB rB stB hB⟩

theorem C9_read_available_witness :
    read_available (LineReader.mk false [] 0 [[97, 10]]) [.wouldBlock] =
      some (.ok (), LineReader.mk false (grow_buf [] 0) 0 [[97, 10]]) ∧
    read_available_nonblock (LineReader.mk true [] 0 []) [] =
      some (.ok (), LineReader.mk true [] 0 []) ∧
    (((Except.ok () : Except IOErr Unit) = .ok () →
        eof (LineReader.mk false (grow_buf [] 0) 0 [[97, 10]]) = true ∨
        has_lines (LineReader.mk false (grow_buf [] 0) 0 [[97, 10]]) = true) ∧
      (∀ e, (Except.ok () : Except IOErr Unit) = .error e →
        ∃ lr0 ev, read_once lr0 ev =
          (.error e, LineReader.mk false (grow_buf [] 0) 0 [[97, 10]]))) ∧
    (((Except.ok () : Except IOErr Unit) = .ok () →
        eof (LineReader.mk true [] 0 []) = true) ∧
      (∀ e, (Except.ok () : Except IOErr Unit) = .error e →
        ∃ lr0 ev, read_once lr0 ev = (.error e, LineReader.mk true [] 0 []))) := by
  have hq : read_once (LineReader.mk false [] 0 [[97, 10]]) .wouldBlock =
      (.ok true, LineReader.mk false (grow_buf [] 0) 0 [[97, 10]]) :=
    read_once_wouldBlock rfl
  have hA : read_available (LineReader.mk false [] 0 [[97, 10]]) [.wouldBlock] =
      some (.ok (), LineReader.mk false (grow_buf [] 0) 0 [[97, 10]]) :=
    read_available_cons_stop rfl hq rfl []
  have hB : read_available_nonblock (LineReader.mk true [] 0 []) [] =
      some (.ok (), LineReader.mk true [] 0 []) :=
    read_available_nonblock_at_eof rfl []
  refine ⟨hA, hB, ?_⟩
  exact C9_read_available (LineReader.mk false [] 0 [[97, 10]]) (LineReader.mk true [] 0 [])
    [.wouldBlock] [] (.ok ()) (.ok ())
    (LineReader.mk false (grow_buf [] 0) 0 [[97, 10]]) (LineReader.mk true [] 0 []) hA hB

end Lineriver